import Mathlib

/-!
Verification development for the grok-sdr-system backend.

The definitions below are a shallow embedding of the code under
`src/backend/src`: the free-text criteria parser and the `score_lead`
executor of `services/toolRegistry.ts`, the `ToolRegistry` dispatch, the
provider client (`GrokService.callGrok` / `GrokService.chatWithTools`),
and the tool-execution loop of `routes/agent.ts`.

Modelling conventions:
* TypeScript strings are `List Char` (`Str` below); string literals from the
  source are written with `"...".data`.
* JavaScript numbers are `Nat` / `Int` where the source only ever holds
  integers, and `Rat` where it can hold fractions; `Math.round` is
  `jsRound` (round half towards positive infinity, as in JavaScript).
* The regular expressions of the parser are hand-compiled into scanners
  that implement the exact leftmost-first / backtracking semantics of the
  concrete patterns, restricted to ASCII input (the only input the
  patterns target); each scanner names the source pattern it implements.
* Database access through Prisma is modelled as explicit state passing
  over a `DB` record; `await`ed provider calls are modelled by response
  oracles.
-/

namespace SDR

/-- TypeScript strings are modelled as lists of characters. -/
abbrev Str := List Char

/-- ASCII case folding: the behaviour of `toLowerCase()` on the ASCII
characters that the source patterns match. -/
def lowerChar (c : Char) : Char :=
  if 65 ≤ c.toNat ∧ c.toNat ≤ 90 then Char.ofNat (c.toNat + 32) else c

/-- Source `toLowerCase()` on a whole string. -/
def lowerStr (s : Str) : Str := s.map lowerChar

/-- The `\s` character class of JavaScript regexes, restricted to ASCII. -/
def isWs (c : Char) : Bool := c = ' ' ∨ c = '\t' ∨ c = '\n' ∨ c = '\r'

/-- The `\d` character class. -/
def isDig (c : Char) : Bool := 48 ≤ c.toNat ∧ c.toNat ≤ 57

/-- The `\w` (word) character class `[A-Za-z0-9_]`, used for `\b` boundaries. -/
def isWordChar (c : Char) : Bool :=
  (65 ≤ c.toNat ∧ c.toNat ≤ 90) ∨ (97 ≤ c.toNat ∧ c.toNat ≤ 122) ∨ isDig c ∨ c = '_'

/-- The `[A-Za-z]` character class. -/
def isAlpha (c : Char) : Bool :=
  (65 ≤ c.toNat ∧ c.toNat ≤ 90) ∨ (97 ≤ c.toNat ∧ c.toNat ≤ 122)

/-- Numeric value of a digit run, as computed by `parseInt` on a `\d+` capture. -/
def natOfDigits (ds : Str) : Nat := ds.foldl (fun n c => n * 10 + (c.toNat - 48)) 0

/-- Decimal representation of a `Nat`, as interpolated into template literals. -/
def natRepr (n : Nat) : Str := (Nat.repr n).data

/-- Decimal representation of an `Int`. -/
def intRepr (i : Int) : Str := (Int.repr i).data

/-! Rational arithmetic.  The standard `Rat` operations are irreducible to
`decide`-style evaluation, so the embedding uses the following equivalents
built from `mkRat`, together with bridge lemmas to the standard operations
for use in proofs. -/

/-- Addition on `Rat`, kernel-reducible. -/
def qAdd (a b : Rat) : Rat := mkRat (a.num * b.den + b.num * a.den) (a.den * b.den)

/-- Multiplication on `Rat`, kernel-reducible. -/
def qMul (a b : Rat) : Rat := mkRat (a.num * b.num) (a.den * b.den)

/-- Division on `Rat`, kernel-reducible; division by zero gives zero, the
same convention as `Rat.div` (the embedding never divides by zero on the
paths the source guards). -/
def qDiv (a b : Rat) : Rat :=
  if b.num < 0 then mkRat (-(a.num * b.den)) (a.den * (-b.num).toNat)
  else mkRat (a.num * b.den) (a.den * b.num.toNat)

/-- Floor on `Rat`, kernel-reducible. -/
def qFloor (q : Rat) : Int := Int.fdiv q.num q.den

/-- Source `Math.round`: round half towards positive infinity. -/
def jsRound (q : Rat) : Int := qFloor (qAdd q (mkRat 1 2))


/-- Case-insensitive literal match: does `kw` match at the head of `s`
ignoring case?  Returns the suffix after the keyword on success. -/
def ciMatch : Str → Str → Option Str
  | [], s => some s
  | _ :: _, [] => none
  | k :: kw, c :: s => if lowerChar c = lowerChar k then ciMatch kw s else none

/-- Case-sensitive literal match; returns the suffix after the literal. -/
def litMatch : Str → Str → Option Str
  | [], s => some s
  | _ :: _, [] => none
  | k :: kw, c :: s => if c = k then litMatch kw s else none

/-- Does `pat` occur (case-sensitively) anywhere in `s`?  This is
`String.prototype.includes`. -/
def containsSub (s pat : Str) : Bool :=
  match s with
  | [] => (litMatch pat []).isSome
  | _ :: rest => (litMatch pat s).isSome || containsSub rest pat

/-- A global-regex driver: at each position try `step` on the remaining
suffix; on a match, emit the token and resume after the match, otherwise
advance one character.  `fuel` bounds the number of iterations; every
pattern modelled here consumes at least one character per match, so
`s.length` fuel is always enough. -/
def scanG {α : Type} (step : Str → Option (α × Str)) : Nat → Str → List α
  | 0, _ => []
  | _, [] => []
  | fuel + 1, s =>
    match step s with
    | some (a, s1) => a :: scanG step fuel s1
    | none =>
      match s with
      | [] => []
      | _ :: rest => scanG step fuel rest

/-! Section: Weight extraction

`toolRegistry.ts` lines 85-105.  The percentage pattern is
`/(?:Size|size|Company Size)[\s=:]+(\d+)%|(?:Industry|industry)[\s=:]+(\d+)%|(?:Intent|intent|Budget)[\s=:]+(\d+)%/gi`
and the bare-point pattern is the same with `(\d+)(?!\s*%)` in place of
`(\d+)%`. -/

/-- The `[\s=:]` character class of the weight patterns. -/
def wsEqColon (c : Char) : Bool := isWs c || c = '=' || c = ':'

/-- Tail of a percent-weight branch after its keyword: `[\s=:]+(\d+)%`.
Greedy runs need no backtracking here because the three character sets
involved are pairwise disjoint. -/
def pctTail (s : Str) : Option (Nat × Str) :=
  match s with
  | [] => none
  | c :: _ =>
    if wsEqColon c then
      let s1 := s.dropWhile wsEqColon
      let ds := s1.takeWhile isDig
      if ds = [] then none
      else
        match s1.drop ds.length with
        | '%' :: s2 => some (natOfDigits ds, s2)
        | _ => none
    else none

/-- Is the lookahead `\s*%` satisfied at `s`? -/
def wsThenPct (s : Str) : Bool :=
  match s.dropWhile isWs with
  | '%' :: _ => true
  | _ => false

/-- Tail of a bare-point branch after its keyword: `[\s=:]+(\d+)(?!\s*%)`.
When the full digit run is followed by `\s*%` the engine backtracks the
greedy `(\d+)` by one digit, after which the negative lookahead succeeds
(the next character is a digit); a single digit cannot backtrack, so the
branch fails. -/
def ptTail (s : Str) : Option (Nat × Str) :=
  match s with
  | [] => none
  | c :: _ =>
    if wsEqColon c then
      let s1 := s.dropWhile wsEqColon
      let ds := s1.takeWhile isDig
      let s2 := s1.drop ds.length
      if ds = [] then none
      else if ¬ wsThenPct s2 then some (natOfDigits ds, s2)
      else if 2 ≤ ds.length then
        some (natOfDigits ds.dropLast, ds.drop (ds.length - 1) ++ s2)
      else none
    else none

/-- One alternation branch: try each keyword in the order it appears in the
source pattern; on a keyword match attempt the branch tail, and on tail
failure fall through to the next keyword (regex alternation backtracking). -/
def wBranch (tail : Str → Option (Nat × Str)) : List Str → Str → Option (Nat × Str)
  | [], _ => none
  | kw :: kws, s =>
    match ciMatch kw s with
    | some s1 =>
      match tail s1 with
      | some r => some r
      | none => wBranch tail kws s
    | none => wBranch tail kws s

/-- Weight categories: the three capture groups of the weight patterns. -/
inductive WCat
  | size
  | industry
  | intent
  deriving DecidableEq

/-- Keyword alternatives of the size branch, in source order. -/
def sizeKws : List Str := ["Size".data, "size".data, "Company Size".data]

/-- Keyword alternatives of the industry branch. -/
def industryKws : List Str := ["Industry".data, "industry".data]

/-- Keyword alternatives of the intent branch. -/
def intentKws : List Str := ["Intent".data, "intent".data, "Budget".data]

/-- The three-branch alternation of a weight pattern at one position,
branches tried in source order. -/
def wStep (tail : Str → Option (Nat × Str)) (s : Str) : Option ((WCat × Nat) × Str) :=
  match wBranch tail sizeKws s with
  | some (v, s1) => some ((WCat.size, v), s1)
  | none =>
    match wBranch tail industryKws s with
    | some (v, s1) => some ((WCat.industry, v), s1)
    | none =>
      match wBranch tail intentKws s with
      | some (v, s1) => some ((WCat.intent, v), s1)
      | none => none

/-- All matches of the percentage weight pattern, leftmost first. -/
def percentScan (text : Str) : List (WCat × Nat) :=
  scanG (wStep pctTail) text.length text

/-- All matches of the bare-point weight pattern, leftmost first. -/
def pointScan (text : Str) : List (WCat × Nat) :=
  scanG (wStep ptTail) text.length text

/-- The weight slots of the parsed criteria. -/
structure Weights where
  size : Nat
  industry : Nat
  intent : Nat
  deriving DecidableEq

/-- The documented defaults: size 40, industry 30, intent 30. -/
def defaultWeights : Weights := ⟨40, 30, 30⟩

/-- Project a weight slot. -/
def getW (w : Weights) : WCat → Nat
  | WCat.size => w.size
  | WCat.industry => w.industry
  | WCat.intent => w.intent

/-- Apply one matched weight token (each match overwrites its slot, so a
later match wins, exactly as the `while`-loop assignments do). -/
def setW (w : Weights) : WCat × Nat → Weights
  | (WCat.size, v) => { w with size := v }
  | (WCat.industry, v) => { w with industry := v }
  | (WCat.intent, v) => { w with intent := v }

/-- Fold the matched weight tokens over the defaults. -/
def applyWeights (w : Weights) (l : List (WCat × Nat)) : Weights := l.foldl setW w

/-- The weight tokens the parser acts on: percentage matches if any exist
(`foundWeights`), otherwise bare-point matches. -/
def weightTokens (text : Str) : List (WCat × Nat) :=
  let pm := percentScan text
  if pm = [] then pointScan text else pm

/-- The weight-extraction part of `parseCriteria` (lines 85-105). -/
def parseWeights (text : Str) : Weights := applyWeights defaultWeights (weightTokens text)

/-! Section: Employee-range extraction

`toolRegistry.ts` lines 107-153: `/(?:>|over|above)\s*(\d+)\s*(?:employees)?/gi`
and `/(?:under|below|<)\s*(\d+)\s*(?:employees)?/gi` collect thresholds; for
each threshold a derived pattern looks for an adjacent `lo-hi` point range. -/

/-- Tail of a threshold match after its keyword: `\s*(\d+)\s*(?:employees)?`.
The trailing `\s*` and the optional `employees` are part of the match (greedy),
which fixes where the global scan resumes. -/
def thrTail (s : Str) : Option (Nat × Str) :=
  let s1 := s.dropWhile isWs
  let ds := s1.takeWhile isDig
  if ds = [] then none
  else
    let s2 := (s1.drop ds.length).dropWhile isWs
    match ciMatch "employees".data s2 with
    | some s3 => some (natOfDigits ds, s3)
    | none => some (natOfDigits ds, s2)

/-- Keyword alternatives of the over pattern, in source order. -/
def overKws : List Str := [">".data, "over".data, "above".data]

/-- Keyword alternatives of the under pattern, in source order. -/
def underKws : List Str := ["under".data, "below".data, "<".data]

/-- All thresholds matched by the over pattern, leftmost first. -/
def overMatches (text : Str) : List Nat :=
  scanG (wBranch thrTail overKws) text.length text

/-- All thresholds matched by the under pattern, leftmost first. -/
def underMatches (text : Str) : List Nat :=
  scanG (wBranch thrTail underKws) text.length text

/-- The `[-–]` character class (hyphen or en dash). -/
def isDash (c : Char) : Bool := c = '-' || c = '–'

/-- The lazy middle of the point-range patterns: `[^.]*?(\d+)[-–](\d+)`.
The lazy class grows one character at a time (never across a `.`), and at
each stop the greedy `(\d+)[-–](\d+)` either matches with maximal digit
runs or fails outright (a shortened first run is followed by a digit, not
a dash). -/
def dashInner : Str → Option (Nat × Nat)
  | [] => none
  | c :: rest =>
    let s := c :: rest
    let ds := s.takeWhile isDig
    let fail := if c = '.' then none else dashInner rest
    if ds = [] then fail
    else
      match s.drop ds.length with
      | d :: s2 =>
        if isDash d then
          let ds2 := s2.takeWhile isDig
          if ds2 = [] then fail else some (natOfDigits ds, natOfDigits ds2)
        else fail
      | [] => fail

/-- Leftmost match of `pre[^.]*?(\d+)[-–](\d+)` where `pre` is a literal
(the interpolated `>${threshold}` of the source). -/
def dashAfter (pre : Str) : Str → Option (Nat × Nat)
  | [] => none
  | c :: rest =>
    match litMatch pre (c :: rest) with
    | some s1 =>
      match dashInner s1 with
      | some r => some r
      | none => dashAfter pre rest
    | none => dashAfter pre rest

/-- Points for an over threshold (lines 114-126): an adjacent `lo-hi` range
averages, otherwise `high`/`medium` keywords pick 40/25, defaulting to 40. -/
def overPoints (text : Str) (t : Nat) : Rat :=
  match dashAfter ('>' :: natRepr t) text with
  | some (a, b) => qDiv (qAdd (a : Rat) (b : Rat)) 2
  | none =>
    let lt := lowerStr text
    if containsSub lt ('>' :: natRepr t) ∧ containsSub lt "high".data then 40
    else if containsSub lt ('>' :: natRepr t) ∧ containsSub lt "medium".data then 25
    else 40

/-- One position of the under point pattern
`(?:under|<)\s*${threshold}[^.]*?(\d+)[-–](\d+)`. -/
def underDashAt (t : Nat) (s : Str) : Option (Nat × Nat) :=
  let tryKw (kw : Str) : Option (Nat × Nat) :=
    match ciMatch kw s with
    | some s1 =>
      match litMatch (natRepr t) (s1.dropWhile isWs) with
      | some s2 => dashInner s2
      | none => none
    | none => none
  match tryKw "under".data with
  | some r => some r
  | none => tryKw "<".data

/-- Leftmost match of the under point pattern. -/
def underDash (t : Nat) : Str → Option (Nat × Nat)
  | [] => none
  | c :: rest =>
    match underDashAt t (c :: rest) with
    | some r => some r
    | none => underDash t rest

/-- Points for an under threshold (lines 136-143): an adjacent `lo-hi`
range averages, defaulting to 5. -/
def underPoints (text : Str) (t : Nat) : Rat :=
  match underDash t text with
  | some (a, b) => qDiv (qAdd (a : Rat) (b : Rat)) 2
  | none => 5

/-- An employee-count range rule: `{ min: number, max?: number, points }`. -/
structure ERange where
  min : Nat
  max : Option Nat
  points : Rat
  deriving DecidableEq

/-- The extracted employee ranges: over rules first, then under rules, in
match order (lines 112-147). -/
def employeeRanges (text : Str) : List ERange :=
  (overMatches text).map (fun t => ⟨t, none, overPoints text t⟩) ++
    (underMatches text).map (fun t => ⟨0, some t, underPoints text t⟩)

/-- One position of the fallback `/(\d+)\+?\s*employees/i` (lines 150-153). -/
def empSimpleAt (s : Str) : Option Nat :=
  let ds := s.takeWhile isDig
  if ds = [] then none
  else
    let s1 := s.drop ds.length
    let s2 := match s1 with
      | '+' :: r => r
      | _ => s1
    match ciMatch "employees".data (s2.dropWhile isWs) with
    | some _ => some (natOfDigits ds)
    | none => none

/-- Leftmost match of the fallback employee pattern. -/
def empSimple : Str → Option Nat
  | [] => none
  | c :: rest =>
    match empSimpleAt (c :: rest) with
    | some v => some v
    | none => empSimple rest

/-! Section: Industry extraction

`toolRegistry.ts` lines 155-201: a context pattern, a fallback list pattern,
and an always-run standalone vocabulary pattern. -/

/-- The `[A-Za-z/,\s]` capture class of the context pattern. -/
def ctxClass (c : Char) : Bool := isAlpha c || c = '/' || c = ',' || isWs c

/-- The suffix alternation `(?:industry|industries|sector|companies)`, in
source order. -/
def ctxSuffixKw (s : Str) : Option Str :=
  match ciMatch "industry".data s with
  | some r => some r
  | none =>
    match ciMatch "industries".data s with
    | some r => some r
    | none =>
      match ciMatch "sector".data s with
      | some r => some r
      | none => ciMatch "companies".data s

/-- The trailing `\s+(?:industry|...)` of the context pattern: the greedy
`\s+` backtracks from the longest whitespace run (`k` is the run consumed). -/
def ctxEnd (rem2 : Str) : Nat → Option Str
  | 0 => none
  | k + 1 =>
    match ctxSuffixKw (rem2.drop (k + 1)) with
    | some r => some r
    | none => ctxEnd rem2 k

/-- The lazy capture `([A-Za-z/,\s]+?)`: candidate lengths grow from 1 up to
the maximal class run (`left` counts the candidates still to try). -/
def ctxCap (rem1 : Str) : Nat → Nat → Option (Str × Str)
  | _, 0 => none
  | c, left + 1 =>
    let rem2 := rem1.drop c
    match ctxEnd rem2 (rem2.takeWhile isWs).length with
    | some r => some (rem1.take c, r)
    | none => ctxCap rem1 (c + 1) left

/-- The leading `\s+` after a context keyword: greedy, backtracking from the
longest run. -/
def ctxLead (s1 : Str) : Nat → Option (Str × Str)
  | 0 => none
  | k + 1 =>
    let rem1 := s1.drop (k + 1)
    match ctxCap rem1 1 (rem1.takeWhile ctxClass).length with
    | some r => some r
    | none => ctxLead s1 k

/-- One position of the context pattern
`/(?:in|for|targeting)\s+([A-Za-z/,\s]+?)\s+(?:industry|industries|sector|companies)/gi`,
keyword alternatives in source order. -/
def ctxStep (s : Str) : Option (Str × Str) :=
  let tryKw (kw : Str) : Option (Str × Str) :=
    match ciMatch kw s with
    | some s1 => ctxLead s1 (s1.takeWhile isWs).length
    | none => none
  match tryKw "in".data with
  | some r => some r
  | none =>
    match tryKw "for".data with
    | some r => some r
    | none => tryKw "targeting".data

/-- All captures of the context pattern, leftmost first. -/
def ctxScan (text : Str) : List Str := scanG ctxStep text.length text

/-- Source `\s+or\s+` (and `\s+and\s+`) with a given connective word. -/
def connSep (word : Str) (s : Str) : Option Str :=
  match s with
  | c :: _ =>
    if isWs c then
      match ciMatch word (s.dropWhile isWs) with
      | some s2 =>
        match s2 with
        | d :: _ => if isWs d then some (s2.dropWhile isWs) else none
        | [] => none
      | none => none
    else none
  | [] => none

/-- One position of the split separator `[,/]|\s+or\s+|\s+and\s+`. -/
def sepMatch (s : Str) : Option Str :=
  match s with
  | ',' :: r => some r
  | '/' :: r => some r
  | _ =>
    match connSep "or".data s with
    | some r => some r
    | none => connSep "and".data s

/-- Source `split` against the separator regex, empty pieces preserved as in
JavaScript. -/
def splitSepGo (acc : Str) : Nat → Str → List Str
  | _, [] => [acc.reverse]
  | 0, s => [acc.reverse ++ s]
  | fuel + 1, s =>
    match sepMatch s with
    | some s1 => acc.reverse :: splitSepGo [] fuel s1
    | none =>
      match s with
      | c :: rest => splitSepGo (c :: acc) fuel rest
      | [] => [acc.reverse]

/-- Source `captured.split(/[,/]|\s+or\s+|\s+and\s+/gi)`. -/
def splitSep (s : Str) : List Str := splitSepGo [] s.length s

/-- Source `String.prototype.trim` (ASCII whitespace). -/
def trimStr (s : Str) : Str := ((s.dropWhile isWs).reverse.dropWhile isWs).reverse

/-- Case-sensitive `includes` on a string list. -/
def memStr (l : List Str) (x : Str) : Bool := l.any (fun y => y = x)

/-- The case-insensitive membership used by the standalone loop. -/
def memStrCI (l : List Str) (x : Str) : Bool := l.any (fun y => lowerStr y = lowerStr x)

/-- Source `if (cleaned && !industries.includes(cleaned)) industries.push(cleaned)`. -/
def pushInd (inds : List Str) (x : Str) : List Str :=
  if x ≠ [] ∧ ¬ memStr inds x then inds ++ [x] else inds

/-- The industries collected by the context pattern (lines 159-172). -/
def ctxIndustries (text : Str) : List Str :=
  (ctxScan text).foldl
    (fun inds cap => (splitSep cap).foldl (fun i p => pushInd i (trimStr p)) inds) []

/-- Greedy `(?:[slash or hyphen][A-Za-z]+)*`: maximal run of groups, each returned with
its leading punctuation character. -/
def listGroups : Nat → Str → List Str × Str
  | 0, s => ([], s)
  | fuel + 1, s =>
    match s with
    | c :: rest =>
      if c = '/' ∨ c = '-' then
        let ls := rest.takeWhile isAlpha
        if ls = [] then ([], s)
        else
          let (gs, r) := listGroups fuel (rest.drop ls.length)
          ((c :: ls) :: gs, r)
      else ([], s)
    | [] => ([], s)

/-- One position of `/\b([A-Za-z]+(?:[slash or hyphen][A-Za-z]+)+)\b/g`.  When the final
word boundary fails, the engine gives back the last group (the boundary then
sits before `/` or `-` and holds); with a single group it fails outright. -/
def listStep (prev : Option Char) (s : Str) : Option (Str × Option Char × Str) :=
  let bOK := match prev with
    | none => true
    | some p => ¬ isWordChar p
  if bOK then
    let l1 := s.takeWhile isAlpha
    if l1 = [] then none
    else
      let gr := listGroups s.length (s.drop l1.length)
      if gr.1 = [] then none
      else
        let endOK := match gr.2 with
          | [] => true
          | c :: _ => ¬ isWordChar c
        if endOK then
          let m := l1 ++ gr.1.flatten
          some (m, m.getLast?, gr.2)
        else if 2 ≤ gr.1.length then
          let m := l1 ++ gr.1.dropLast.flatten
          match gr.1.getLast? with
          | some g => some (m, m.getLast?, g ++ gr.2)
          | none => none
        else none
  else none

/-- A driver for the global patterns that carry a `\b` look-behind: `prev`
is the character just before the current position. -/
def scanB {α : Type} (step : Option Char → Str → Option (α × Option Char × Str)) :
    Nat → Option Char → Str → List α
  | 0, _, _ => []
  | _, _, [] => []
  | fuel + 1, prev, s =>
    match step prev s with
    | some (a, p1, s1) => a :: scanB step fuel p1 s1
    | none =>
      match s with
      | [] => []
      | c :: rest => scanB step fuel (some c) rest

/-- Source `matched.split(/[/,-]/)`. -/
def splitPunctGo : Str → Str → List Str
  | [], acc => [acc.reverse]
  | c :: rest, acc =>
    if c = '/' ∨ c = ',' ∨ c = '-' then acc.reverse :: splitPunctGo rest []
    else splitPunctGo rest (c :: acc)

/-- Split a list-pattern match on its punctuation. -/
def splitPunct (s : Str) : List Str := splitPunctGo s []

/-- The fallback slash/comma list loop (lines 175-188), run only when the
context pass found nothing. -/
def listFold (text : Str) (inds0 : List Str) : List Str :=
  (scanB listStep text.length none text).foldl
    (fun inds m => (splitPunct m).foldl (fun i p => pushInd i (trimStr p)) inds) inds0

/-- The standalone vocabulary, in source order. -/
def standKws : List Str :=
  ["SaaS".data, "Tech".data, "Technology".data, "Finance".data, "Financial".data,
    "Healthcare".data, "Retail".data, "Manufacturing".data, "Software".data]

/-- Try the standalone alternatives at one position; a failing trailing
boundary falls through to the next alternative (so `Tech` yields to
`Technology` on the full word).  The emitted token is the matched slice of
the input, original case. -/
def standTry : List Str → Str → Option (Str × Option Char × Str)
  | [], _ => none
  | kw :: kws, s =>
    match ciMatch kw s with
    | some s1 =>
      let endOK := match s1 with
        | [] => true
        | c :: _ => ¬ isWordChar c
      if endOK then
        let m := s.take kw.length
        some (m, m.getLast?, s1)
      else standTry kws s
    | none => standTry kws s

/-- One position of the standalone pattern
`/\b(SaaS|Tech|Technology|Finance|Financial|Healthcare|Retail|Manufacturing|Software)\b/gi`. -/
def standStep (prev : Option Char) (s : Str) : Option (Str × Option Char × Str) :=
  let bOK := match prev with
    | none => true
    | some p => ¬ isWordChar p
  if bOK then standTry standKws s else none

/-- The standalone loop (lines 190-198), its case-insensitive dedup. -/
def pushStand (inds : List Str) (x : Str) : List Str :=
  if ¬ memStrCI inds x then inds ++ [x] else inds

/-- Run the standalone loop over the text. -/
def standFold (text : Str) (inds0 : List Str) : List Str :=
  (scanB standStep text.length none text).foldl pushStand inds0

/-- The full industry extraction (lines 155-201): context pass, list-pattern
pass only if the context pass found nothing, standalone pass always. -/
def parsedIndustries (text : Str) : List Str :=
  let inds1 := ctxIndustries text
  let inds2 := if inds1 = [] then listFold text inds1 else inds1
  standFold text inds2

/-! Section: Budget extraction (`toolRegistry.ts` lines 203-230) -/

/-- The `[\d,]` character class. -/
def isDigComma (c : Char) : Bool := isDig c || c = ','

/-- Source `parseInt(captured.replace(/,/g, ''))`: the capture holds only digits
and commas, so stripping commas leaves the digits; `none` models the `NaN`
outcome on a digit-free capture. -/
def parseIntStripped (ds : Str) : Option Nat :=
  let digs := ds.filter isDig
  if digs = [] then none else some (natOfDigits digs)

/-- The `k`/`m` suffix multipliers (lines 219-224). -/
def applySuffix (v : Option Nat) (suf : Option Char) : Option Nat :=
  match v with
  | none => none
  | some b =>
    match suf with
    | some c =>
      if lowerChar c = 'k' then some (b * 1000)
      else if lowerChar c = 'm' then some (b * 1000000)
      else some b
    | none => some b

/-- Source `\$?([\d,]+)(k|m)` at one position (the suffix required). -/
def moneyKM (s : Str) : Option (Str × Char × Str) :=
  let s0 := match s with
    | '$' :: r => r
    | _ => s
  let run := s0.takeWhile isDigComma
  if run = [] then none
  else
    match s0.drop run.length with
    | c :: r => if lowerChar c = 'k' ∨ lowerChar c = 'm' then some (run, c, r) else none
    | [] => none

/-- Source `\$?([\d,]+)(k|m)?` from a position after `\$?` (the suffix optional). -/
def moneySufOpt (s0 : Str) : Option (Str × Option Char × Str) :=
  let run := s0.takeWhile isDigComma
  if run = [] then none
  else
    match s0.drop run.length with
    | c :: r =>
      if lowerChar c = 'k' ∨ lowerChar c = 'm' then some (run, some c, r)
      else some (run, none, c :: r)
    | [] => some (run, none, [])

/-- The `[>>=]` class of the first budget pattern (`>` and `=`). -/
def isGtEq (c : Char) : Bool := c = '>' || c = '='

/-- Source `/[Bb]udget\s*[>>=]+\s*\$?([\d,]+)(k|m)?/i` at one position. -/
def budP1At (s : Str) : Option (Str × Option Char) :=
  match ciMatch "budget".data s with
  | some s1 =>
    let s2 := s1.dropWhile isWs
    let ops := s2.takeWhile isGtEq
    if ops = [] then none
    else
      let s3 := (s2.drop ops.length).dropWhile isWs
      let s4 := match s3 with
        | '$' :: r => r
        | _ => s3
      match moneySufOpt s4 with
      | some (run, suf, _) => some (run, suf)
      | none => none
  | none => none

/-- Source `/>\s*\$?([\d,]+)(k|m)/i` at one position. -/
def budP2At (s : Str) : Option (Str × Option Char) :=
  match s with
  | '>' :: s1 =>
    match moneyKM (s1.dropWhile isWs) with
    | some (run, c, _) => some (run, some c)
    | none => none
  | _ => none

/-- Source `/\$?([\d,]+)(k|m)\s+budget/i` at one position. -/
def budP3At (s : Str) : Option (Str × Option Char) :=
  match moneyKM s with
  | some (run, c, r) =>
    match r with
    | d :: _ =>
      if isWs d then
        match ciMatch "budget".data (r.dropWhile isWs) with
        | some _ => some (run, some c)
        | none => none
      else none
    | [] => none
  | none => none

/-- The `.` class of `.*?`: any character but a line terminator. -/
def isDot (c : Char) : Bool := ¬ (c = '\n' ∨ c = '\r')

/-- The lazy `.*?\$?([\d,]+)(k|m)` middle of the fourth budget pattern. -/
def lazyMoney : Str → Option (Str × Char)
  | [] => none
  | c :: rest =>
    match moneyKM (c :: rest) with
    | some (run, k, _) => some (run, k)
    | none => if isDot c then lazyMoney rest else none

/-- Source `/budget.*?\$?([\d,]+)(k|m)/i` at one position. -/
def budP4At (s : Str) : Option (Str × Option Char) :=
  match ciMatch "budget".data s with
  | some s1 =>
    match lazyMoney s1 with
    | some (run, k) => some (run, some k)
    | none => none
  | none => none

/-- Source `/\$?([\d,]+)(k|m)/i` at one position. -/
def budP5At (s : Str) : Option (Str × Option Char) :=
  match moneyKM s with
  | some (run, c, _) => some (run, some c)
  | none => none

/-- Leftmost-match driver for a non-global pattern. -/
def searchAt {α : Type} (step : Str → Option α) : Str → Option α
  | [] => step []
  | c :: rest =>
    match step (c :: rest) with
    | some r => some r
    | none => searchAt step rest

/-- The ordered budget cascade (first matching pattern wins, lines 205-230):
`some 0` is the initial `minBudget = 0`, `none` models a `NaN` result. -/
def parsedMinBudget (text : Str) : Option Nat :=
  let cands := [searchAt budP1At text, searchAt budP2At text, searchAt budP3At text,
    searchAt budP4At text, searchAt budP5At text]
  match cands.findSome? id with
  | some (run, suf) => applySuffix (parseIntStripped run) suf
  | none => some 0

/-! Section: The assembled criteria record -/

/-- The `criteria` object built by `parseCriteria` (lines 73-83). -/
structure Criteria where
  minEmployees : Nat
  employeeRanges : List ERange
  targetIndustries : List Str
  minBudget : Option Nat
  weights : Weights
  deriving DecidableEq

/-- Source `parseCriteria` (`toolRegistry.ts` lines 72-233). -/
def parseCriteria (text : Str) : Criteria :=
  let ranges := employeeRanges text
  { minEmployees := if ranges = [] then (empSimple text).getD 0 else 0
    employeeRanges := ranges
    targetIndustries := parsedIndustries text
    minBudget := parsedMinBudget text
    weights := parseWeights text }

/-! Section: The database slice and the `score_lead` executor
(`toolRegistry.ts` lines 22-509) -/

/-- Pipeline stages (the Prisma `LeadStage` enum). -/
inductive Stage
  | NEW
  | QUALIFIED
  | CONTACTED
  | MEETING_SCHEDULED
  | PROPOSAL_SENT
  | NEGOTIATION
  | CLOSED_WON
  | CLOSED_LOST
  deriving DecidableEq

/-- The `companyData` JSON written by `score_lead`: `{ size, industry }`. -/
structure CompanyData where
  size : Option Nat
  industry : Option Str
  deriving DecidableEq

/-- A `Lead` row, restricted to the columns `score_lead` touches.  Row ids
(cuids in the schema) are modelled by serial numbers. -/
structure Lead where
  id : Nat
  companyName : Str
  contactName : Str
  email : Str
  website : Option Str
  linkedinUrl : Option Str
  notes : Option Str
  budget : Option Str
  companyData : Option CompanyData
  score : Int
  stage : Stage
  deriving DecidableEq

/-- A breakdown entry as pushed by the executor. -/
structure BEntry where
  category : Str
  score : Rat
  maxScore : Nat
  details : Str
  deriving DecidableEq

/-- An `Activity` row as created by `score_lead` (type `SCORE_UPDATED`,
metadata carrying the breakdown). -/
structure Activity where
  leadId : Nat
  atype : Str
  description : Str
  breakdown : List BEntry
  deriving DecidableEq

/-- The slice of the database the executor touches. -/
structure DB where
  leads : List Lead
  activities : List Activity
  nextId : Nat
  deriving DecidableEq

/-- The `score_lead` parameter bag (`Option` models `undefined`). -/
structure ScoreParams where
  companyName : Str
  contactName : Str
  email : Str
  employees : Option Nat
  industry : Option Str
  budget : Option Nat
  website : Option Str
  criteria : Option Str
  linkedin : Option Str
  notes : Option Str
  deriving DecidableEq

/-- JavaScript truthiness of an optional number (`0` is falsy). -/
def truthyN : Option Nat → Bool
  | some n => n ≠ 0
  | none => false

/-- JavaScript truthiness of an optional string (`''` is falsy). -/
def truthyS : Option Str → Bool
  | some s => s ≠ []
  | none => false

/-- Find a lead by its unique email. -/
def findByEmail (leads : List Lead) (email : Str) : Option Lead :=
  leads.find? (fun l => decide (l.email = email))

/-- Source `prisma.lead.update({ where: { id } })` on the lead list. -/
def updateById (leads : List Lead) (id : Nat) (f : Lead → Lead) : List Lead :=
  leads.map (fun l => if l.id = id then f l else l)

/-- Source `prisma.lead.upsert` (lines 241-268).  In the update branch a Prisma
`undefined` leaves the column unchanged; in the create branch it leaves the
column null. -/
def upsertLead (db : DB) (p : ScoreParams) : Lead × DB :=
  match findByEmail db.leads p.email with
  | some old =>
    let upd := { old with
      companyName := p.companyName
      contactName := p.contactName
      budget := if truthyN p.budget then some (natRepr (p.budget.getD 0)) else old.budget
      linkedinUrl := if truthyS p.linkedin then p.linkedin else old.linkedinUrl
      notes := if truthyS p.notes then p.notes else old.notes
      companyData := some ⟨p.employees, p.industry⟩
      website := if truthyS p.website then p.website else old.website }
    (upd, { db with leads := updateById db.leads old.id (fun _ => upd) })
  | none =>
    let created : Lead := {
      id := db.nextId
      companyName := p.companyName
      contactName := p.contactName
      email := p.email
      website := p.website
      linkedinUrl := if truthyS p.linkedin then p.linkedin else none
      notes := if truthyS p.notes then p.notes else none
      budget := if truthyN p.budget then some (natRepr (p.budget.getD 0)) else none
      companyData := some ⟨p.employees, p.industry⟩
      score := 0
      stage := Stage.NEW }
    (created, { db with leads := db.leads ++ [created], nextId := db.nextId + 1 })

/-- Stable insertion into a min-descending list: an inserted element goes
after existing elements with an equal key, matching the stable
`sort((a, b) => (b.min || 0) - (a.min || 0))` of line 285. -/
def insertRange (r : ERange) : List ERange → List ERange
  | [] => [r]
  | x :: xs => if r.min ≤ x.min then x :: insertRange r xs else r :: x :: xs

/-- The sorted copy `sortedRanges` of line 285. -/
def sortRangesDesc (l : List ERange) : List ERange :=
  l.foldl (fun acc r => insertRange r acc) []

/-- The selection loop over the sorted ranges (lines 287-301): an upper
bound is checked with `employees < max`, a lower bound with
`employees >= min`, first hit wins. -/
def selectRange (emp : Nat) : List ERange → Option ERange
  | [] => none
  | r :: rs =>
    match r.max with
    | some m => if emp < m then some r else selectRange emp rs
    | none => if r.min ≤ emp then some r else selectRange emp rs

/-- Source `!range.max`: `max` is falsy when absent or zero. -/
def maxFalsy (r : ERange) : Bool :=
  match r.max with
  | none => true
  | some m => decide (m = 0)

/-- Source `range.max && employees >= range.max`: `max` truthy and at most `emp`. -/
def maxTruthyLe (r : ERange) (emp : Nat) : Bool :=
  match r.max with
  | none => false
  | some m => decide (m ≠ 0) && decide (m ≤ emp)

/-- Source `Math.min`. -/
def qMin (a b : Rat) : Rat := if a ≤ b then a else b

/-- The no-match fallback of lines 304-324 with its details strings:
interpolation between rules, a proportional award below all thresholds, or
the default proportional award. -/
def sizeFallbackD (sorted : List ERange) (emp : Nat) (sizeWeight : Nat) : Rat × Str :=
  let highRange := sorted.find? (fun r => maxFalsy r && decide (emp < r.min))
  let lowRange := sorted.find? (fun r => maxTruthyLe r emp)
  match highRange, lowRange with
  | some hr, some lr =>
    (qDiv (qAdd hr.points lr.points) 2,
      natRepr emp ++ " employees (between thresholds)".data)
  | some hr, none =>
    let proportion := qDiv (emp : Rat) (hr.min : Rat)
    ((jsRound (qMul (qMul hr.points proportion) (mkRat 1 2)) : Rat),
      natRepr emp ++ " employees (".data ++ intRepr (jsRound (qMul proportion 100)) ++
        "% of ".data ++ natRepr hr.min ++ " threshold)".data)
  | none, _ =>
    let proportion := qMin (qDiv (emp : Rat) ((100 : Nat) : Rat)) 1
    ((jsRound (qMul (qMul ((sizeWeight : Nat) : Rat) proportion) (mkRat 3 10)) : Rat),
      natRepr emp ++ " employees".data)

/-- A banding award `base * weight` paired with its details string. -/
def qMulPair (base : Rat) (w : Nat) (details : Str) : Rat × Str :=
  (qMul base (w : Rat), details)

/-- The selected-range outcome of the loop of lines 287-301: the range's
points with its details string, unless the points are zero, in which case
the `if (sizeScore === 0)` fallback recomputes both. -/
def sizeSelected (r : ERange) (sorted : List ERange) (emp : Nat) (sizeWeight : Nat) :
    Rat × Str :=
  if r.points ≠ 0 then
    (r.points,
      match r.max with
      | some m => natRepr emp ++ " employees (under ".data ++ natRepr m ++ " threshold)".data
      | none => natRepr emp ++ " employees (above ".data ++ natRepr r.min ++ " threshold)".data)
  else sizeFallbackD sorted emp sizeWeight

/-- The size branch of lines 279-339 for a truthy employee count: the
awarded `sizeScore` and the `sizeDetails` string. -/
def sizeScoreDetails (c : Criteria) (emp : Nat) : Rat × Str :=
  if c.employeeRanges ≠ [] then
    match selectRange emp (sortRangesDesc c.employeeRanges) with
    | some r => sizeSelected r (sortRangesDesc c.employeeRanges) emp c.weights.size
    | none => sizeFallbackD (sortRangesDesc c.employeeRanges) emp c.weights.size
  else if 0 < c.minEmployees then
    if c.minEmployees ≤ emp then
      ((c.weights.size : Rat),
        natRepr emp ++ " employees exceeds minimum of ".data ++ natRepr c.minEmployees)
    else (0, natRepr emp ++ " employees below minimum of ".data ++ natRepr c.minEmployees)
  else
    qMulPair (if 500 ≤ emp then 1 else if 100 ≤ emp then mkRat 3 4
      else if 50 ≤ emp then mkRat 1 2 else mkRat 1 4) c.weights.size
      (natRepr emp ++ " employees".data)

/-- The company-size contribution (lines 275-348): score added and breakdown
entries pushed. -/
def sizeContrib (c : Criteria) (p : ScoreParams) : Rat × List BEntry :=
  if truthyN p.employees then
    ((sizeScoreDetails c (p.employees.getD 0)).1,
      [⟨"Company Size".data, (sizeScoreDetails c (p.employees.getD 0)).1, c.weights.size,
        (sizeScoreDetails c (p.employees.getD 0)).2⟩])
  else (0, [])

/-- The synonym table of lines 362-373. -/
def variations (key : Str) : Option (List Str) :=
  if key = "tech".data then some ["technology".data, "tech".data, "technical".data]
  else if key = "technology".data then some ["technology".data, "tech".data, "technical".data]
  else if key = "saas".data then some ["saas".data, "software".data, "software as a service".data]
  else if key = "software".data then some ["software".data, "saas".data]
  else if key = "finance".data then some ["finance".data, "financial".data, "fintech".data, "banking".data]
  else if key = "financial".data then some ["finance".data, "financial".data, "fintech".data, "banking".data]
  else if key = "healthcare".data then some ["healthcare".data, "health".data, "medical".data, "pharma".data]
  else if key = "health".data then some ["healthcare".data, "health".data, "medical".data]
  else if key = "retail".data then some ["retail".data, "ecommerce".data, "e-commerce".data]
  else if key = "ecommerce".data then some ["retail".data, "ecommerce".data, "e-commerce".data]
  else none

/-- Source `variations[x] || [x]`. -/
def variationsOf (key : Str) : List Str := (variations key).getD [key]

/-- One check of `criteria.targetIndustries.some(...)` (lines 356-383):
direct lower-case match or overlapping synonym classes. -/
def industryMatches (target : Str) (paramInd : Str) : Bool :=
  let indLower := lowerStr target
  let paramLower := lowerStr paramInd
  if paramLower = indLower then true
  else (variationsOf indLower).any (fun v1 => memStr (variationsOf paramLower) v1)

/-- Source `/saas|tech|software/i.test(industry)`. -/
def testSaasTechSoftware (ind : Str) : Bool :=
  let l := lowerStr ind
  containsSub l "saas".data || containsSub l "tech".data || containsSub l "software".data

/-- Source `targetIndustries.join(', ')`. -/
def joinComma (l : List Str) : Str := List.intercalate ", ".data l

/-- The industry contribution (lines 350-413). -/
def industryContrib (c : Criteria) (p : ScoreParams) : Rat × List BEntry :=
  if truthyS p.industry then
    if c.targetIndustries ≠ [] then
      if c.targetIndustries.any (fun t => industryMatches t (p.industry.getD [])) then
        ((c.weights.industry : Rat),
          [⟨"Industry Fit".data, (c.weights.industry : Rat), c.weights.industry,
            p.industry.getD [] ++ " matches target criteria".data⟩])
      else
        (0, [⟨"Industry Fit".data, 0, c.weights.industry,
          p.industry.getD [] ++ " does not match target industries (".data ++
            joinComma c.targetIndustries ++ ")".data⟩])
    else
      (qMul (if testSaasTechSoftware (p.industry.getD []) then 1 else mkRat 1 2)
          (c.weights.industry : Rat),
        [⟨"Industry Fit".data,
          qMul (if testSaasTechSoftware (p.industry.getD []) then 1 else mkRat 1 2)
            (c.weights.industry : Rat),
          c.weights.industry, p.industry.getD []⟩])
  else (0, [])

/-- Comma grouping over a reversed digit string (`k` digits emitted since
the last separator). -/
def commaRev : Str → Nat → Str
  | [], _ => []
  | c :: rest, k =>
    if k = 3 then ',' :: c :: commaRev rest 1
    else c :: commaRev rest (k + 1)

/-- Source `Number.prototype.toLocaleString()` under the `en-US` default grouping. -/
def natLocale (n : Nat) : Str := (commaRev (natRepr n).reverse 0).reverse

/-- The `$${n.toLocaleString()}` interpolation. -/
def dollarLoc (n : Nat) : Str := '$' :: natLocale n

/-- Source `criteria.minBudget > 0`, false for the `NaN` (`none`) case exactly as
in JavaScript. -/
def budMinPos (c : Criteria) : Bool :=
  match c.minBudget with
  | some m => decide (0 < m)
  | none => false

/-- The default budget banding of line 440. -/
def bandB (b : Nat) : Rat :=
  if 200000 ≤ b then 1 else if 100000 ≤ b then mkRat 3 4
  else if 50000 ≤ b then mkRat 1 2 else mkRat 1 4

/-- The partial award `Math.round((budget / minBudget) * intentWeight)` of
line 429. -/
def partAward (c : Criteria) (p : ScoreParams) : Int :=
  jsRound (qMul (qDiv ((p.budget.getD 0 : Nat) : Rat) ((c.minBudget.getD 0 : Nat) : Rat))
    ((c.weights.intent : Nat) : Rat))

/-- The budget/intent contribution (lines 415-450). -/
def budgetContrib (c : Criteria) (p : ScoreParams) : Rat × List BEntry :=
  if truthyN p.budget then
    if budMinPos c then
      if c.minBudget.getD 0 ≤ p.budget.getD 0 then
        ((c.weights.intent : Rat), [⟨"Budget".data, (c.weights.intent : Rat), c.weights.intent,
          dollarLoc (p.budget.getD 0) ++ " exceeds minimum of ".data ++
            dollarLoc (c.minBudget.getD 0)⟩])
      else
        ((partAward c p : Rat), [⟨"Budget".data, (partAward c p : Rat), c.weights.intent,
          dollarLoc (p.budget.getD 0) ++ " is ".data ++
            intRepr (jsRound (qMul (qDiv ((p.budget.getD 0 : Nat) : Rat)
              ((c.minBudget.getD 0 : Nat) : Rat)) 100)) ++ "% of target".data⟩])
    else
      (qMul (bandB (p.budget.getD 0)) (c.weights.intent : Rat),
        [⟨"Budget".data, qMul (bandB (p.budget.getD 0)) (c.weights.intent : Rat),
          c.weights.intent, dollarLoc (p.budget.getD 0)⟩])
  else (0, [])

/-- The outcome of the score computation (lines 270-455). -/
structure ScoreOutcome where
  score : Rat
  maxScore : Nat
  breakdown : List BEntry
  finalScore : Int
  deriving DecidableEq

/-- The `score` accumulator: zero, then the three category contributions
in order (each `score += ...` of lines 341, 386/405, 421/430/442). -/
def rawScore (c : Criteria) (p : ScoreParams) : Rat :=
  qAdd (qAdd (qAdd 0 (sizeContrib c p).1) (industryContrib c p).1) (budgetContrib c p).1

/-- The `maxScore` accumulator: every category weight is added whether or
not the category is present (lines 277, 352, 417). -/
def maxWeight (c : Criteria) : Nat :=
  c.weights.size + c.weights.industry + c.weights.intent

/-- The breakdown in push order. -/
def fullBreakdown (c : Criteria) (p : ScoreParams) : List BEntry :=
  (sizeContrib c p).2 ++ (industryContrib c p).2 ++ (budgetContrib c p).2

/-- Source `finalScore = maxScore === 100 ? Math.round(score) : maxScore > 0 ?
Math.round((score / maxScore) * 100) : 0` (lines 454-455). -/
def finalScoreOf (c : Criteria) (p : ScoreParams) : Int :=
  if maxWeight c = 100 then jsRound (rawScore c p)
  else if 0 < maxWeight c then jsRound (qMul (qDiv (rawScore c p) ((maxWeight c : Nat) : Rat)) 100)
  else 0

/-- The score / maxScore / breakdown accumulation and the final score
(lines 270-455). -/
def computeScore (c : Criteria) (p : ScoreParams) : ScoreOutcome :=
  ⟨rawScore c p, maxWeight c, fullBreakdown c p, finalScoreOf c p⟩

/-- The stage assignment (lines 459-467). -/
def stageFor (finalScore : Int) : Stage :=
  if 80 ≤ finalScore then Stage.QUALIFIED
  else if 60 ≤ finalScore then Stage.CONTACTED
  else if 40 ≤ finalScore then Stage.NEW
  else Stage.NEW

/-- The recommendation strings (lines 496-498). -/
def recommendationFor (finalScore : Int) : Str :=
  if 80 ≤ finalScore then "✅ High Potential - Strong candidate for immediate outreach".data
  else if 60 ≤ finalScore then "⚡ Qualified lead - Nurture with targeted content".data
  else "📊 Low priority - Continue monitoring".data

/-- The `score_lead` success payload (lines 490-500). -/
structure ScoreData where
  leadId : Nat
  score : Int
  breakdown : List BEntry
  recommendation : Str
  deriving DecidableEq

/-- Source `ToolExecutionResult` (`types/tools.ts`): success flag, optional data,
optional error message. -/
structure ToolExecutionResult where
  success : Bool
  data : Option ScoreData
  error : Option Str
  deriving DecidableEq

/-- The criteria the executor scores against:
`parseCriteria(params.criteria || '')` (lines 69, 235). -/
def critOf (p : ScoreParams) : Criteria :=
  parseCriteria (if truthyS p.criteria then p.criteria.getD [] else [])

/-- The `SCORE_UPDATED` activity row created at lines 479-486. -/
def scoreActivity (p : ScoreParams) (db : DB) : Activity :=
  ⟨(upsertLead db p).1.id, "SCORE_UPDATED".data,
    "Lead scored: ".data ++ intRepr (finalScoreOf (critOf p) p) ++ "/100".data,
    fullBreakdown (critOf p) p⟩

/-- The database after the executor: the upsert (lines 241-268), then the
score-and-stage update (lines 470-476), then the activity append
(lines 479-486). -/
def scoredDB (p : ScoreParams) (db : DB) : DB :=
  ⟨updateById (upsertLead db p).2.leads (upsertLead db p).1.id
      (fun l => { l with
        score := finalScoreOf (critOf p) p
        stage := stageFor (finalScoreOf (critOf p) p) }),
    (upsertLead db p).2.activities ++ [scoreActivity p db],
    (upsertLead db p).2.nextId⟩

/-- The `score_lead` executor (lines 65-508): parse the criteria text,
upsert the lead, compute score and breakdown, persist score and stage,
append the `SCORE_UPDATED` activity, return the success payload. -/
def scoreLeadExec (p : ScoreParams) (db : DB) : ToolExecutionResult × DB :=
  (⟨true, some ⟨(upsertLead db p).1.id, finalScoreOf (critOf p) p, fullBreakdown (critOf p) p,
      recommendationFor (finalScoreOf (critOf p) p)⟩, none⟩,
    scoredDB p db)

/-! Section: `ToolRegistry.executeTool` (`toolRegistry.ts` lines 1280-1319) -/

/-- A registered executor: an async function that either returns a
`ToolExecutionResult` or throws (`Except.error` carries the thrown error
message — a non-`Error` throw is modelled by its substituted message),
possibly having mutated the database either way. -/
abbrev ToolExec := ScoreParams → DB → Except Str ToolExecutionResult × DB

/-- The registry `Map` from tool names to executors (`registerTool` inserts;
the core tool names are distinct). -/
abbrev Registry := List (Str × ToolExec)

/-- Source `Map.prototype.get`. -/
def regGet (reg : Registry) (name : Str) : Option ToolExec :=
  (reg.find? (fun e => decide (e.1 = name))).map Prod.snd

/-- An apostrophe (written by code point to keep source literals exact). -/
def apos : Char := Char.ofNat 39

/-- The unknown-tool message `Tool '<name>' not found` (line 1307). -/
def notFoundMsg (name : Str) : Str :=
  "Tool ".data ++ [apos] ++ name ++ [apos] ++ " not found".data

/-- Source `executeTool` (lines 1302-1319): an unknown name yields a failure
result with the untouched database; a throwing executor is caught and its
message converted to a failure result. -/
def executeTool (reg : Registry) (name : Str) (p : ScoreParams) (db : DB) :
    ToolExecutionResult × DB :=
  match regGet reg name with
  | none => (⟨false, none, some (notFoundMsg name)⟩, db)
  | some ex =>
    match ex p db with
    | (Except.ok r, db1) => (r, db1)
    | (Except.error e, db1) => (⟨false, none, some e⟩, db1)

/-- Source `score_lead` as a registry entry: its own `try`/`catch` means it
resolves rather than throws. -/
def scoreLeadTool : ToolExec := fun p db =>
  let r := scoreLeadExec p db
  (Except.ok r.1, r.2)

/-! Section: Provider client (`GrokService`, in the `conversationService.ts`
bundle: `callGrok` lines 224-277, `chatWithTools` lines 483-543) -/

/-- A provider response: a parsed success, or an error carrying the HTTP
status of `error.response?.status` (`none` when there is no response, e.g.
a transport timeout, for which both status tests are false). -/
inductive ProviderResp
  | ok (content : Str)
  | err (status : Option Nat)
  deriving DecidableEq

instance : DecidableEq (Except (Option Nat) Str) := fun x y =>
  match x, y with
  | Except.ok a, Except.ok b =>
    if h : a = b then isTrue (by rw [h]) else isFalse (by simp [h])
  | Except.ok _, Except.error _ => isFalse (by simp)
  | Except.error _, Except.ok _ => isFalse (by simp)
  | Except.error a, Except.error b =>
    if h : a = b then isTrue (by rw [h]) else isFalse (by simp [h])

/-- The observable outcome of a client call: the backoff delays performed
(milliseconds, in order), the number of attempts consumed, and the result
or the propagated error. -/
structure CallOutcome where
  delays : List Nat
  tries : Nat
  result : Except (Option Nat) Str
  deriving DecidableEq

/-- Source `status >= 500` (false for a missing status, as in JavaScript where
`undefined >= 500` is false). -/
def is5xx : Option Nat → Bool
  | some v => decide (500 ≤ v)
  | none => false

/-- The retry loop of `callGrok` (lines 230-276): attempts are indexed by
`i` from zero with `maxRetries = 3` remaining in total; a 429 sleeps
`2000 * (i + 1)`, a 5xx sleeps `1000 * (i + 1)` and both retry; any other
error is thrown immediately; an exhausted loop throws the last error. -/
def callGrokFrom (oracle : Nat → ProviderResp) : Nat → Nat → Option Nat → CallOutcome
  | _, 0, last => ⟨[], 0, Except.error last⟩
  | i, rem + 1, _ =>
    match oracle i with
    | ProviderResp.ok c => ⟨[], 1, Except.ok c⟩
    | ProviderResp.err s =>
      if s = some 429 then
        let rest := callGrokFrom oracle (i + 1) rem s
        ⟨2000 * (i + 1) :: rest.delays, rest.tries + 1, rest.result⟩
      else if is5xx s then
        let rest := callGrokFrom oracle (i + 1) rem s
        ⟨1000 * (i + 1) :: rest.delays, rest.tries + 1, rest.result⟩
      else ⟨[], 1, Except.error s⟩

/-- Source `callGrok` against a response oracle indexed by attempt number. -/
def callGrok (oracle : Nat → ProviderResp) : CallOutcome :=
  callGrokFrom oracle 0 3 none

/-- Source `chatWithTools` (lines 520-542): one `client.post`, no retry loop; any
error is logged and rethrown. -/
def chatWithTools (oracle : Nat → ProviderResp) : CallOutcome :=
  match oracle 0 with
  | ProviderResp.ok c => ⟨[], 1, Except.ok c⟩
  | ProviderResp.err s => ⟨[], 1, Except.error s⟩

/-! Section: The orchestrator (`routes/agent.ts` lines 20-135) -/

/-- JSON values, for the inline `<function_call>` payloads. -/
inductive Json
  | null
  | bool (b : Bool)
  | num (q : Rat)
  | str (s : Str)
  | arr (elems : List Json)
  | obj (fields : List (Str × Json))

/-- A tool call as the orchestrator handles it: `function.name` is kept as
a JSON value because the synthetic calls of the normalization path copy
whatever the `action` field held (`none` models `undefined`);
provider-issued calls carry `Json.str` names. -/
structure ToolCall where
  id : Str
  fname : Option Json
  fargs : Str

/-- A conversation message. -/
structure Msg where
  role : Str
  content : Option Str
  tool_calls : Option (List ToolCall)
  tool_call_id : Option Str

/-- Everything after the first occurrence of `pat`. -/
def afterFirst (pat : Str) : Str → Option Str
  | [] => litMatch pat []
  | c :: rest =>
    match litMatch pat (c :: rest) with
    | some r => some r
    | none => afterFirst pat rest

/-- Split at the first occurrence of `pat`: the part before it and the part
after it. -/
def upToTag (pat : Str) : Str → Option (Str × Str)
  | [] => (litMatch pat []).map (fun r => ([], r))
  | c :: rest =>
    match litMatch pat (c :: rest) with
    | some r => some ([], r)
    | none => (upToTag pat rest).map (fun pr => (c :: pr.1, pr.2))

/-- Source `content.match(/<function_call>([\s\S]*?)<\/function_call>/)`: the lazy
capture between the first opening tag and the first closing tag after it
(`none` when the match fails). -/
def fcExtract (content : Str) : Option Str :=
  match afterFirst "<function_call>".data content with
  | some s1 => (upToTag "</function_call>".data s1).map Prod.fst
  | none => none

/-- JavaScript truthiness of a JSON value. -/
def jsTruthy : Json → Bool
  | Json.null => false
  | Json.bool b => b
  | Json.num q => decide (q ≠ 0)
  | Json.str s => decide (s ≠ [])
  | Json.arr _ => true
  | Json.obj _ => true

/-- Property access `j[key]`: a field of an object, `undefined` (`none`)
otherwise — except on `null`, which throws (handled at the use site). -/
def jget : Json → Str → Option Json
  | Json.obj fields, key => (fields.find? (fun f => decide (f.1 = key))).map Prod.snd
  | _, _ => none

/-- Source `a || b || {}` over optional JSON values. -/
def truthyJ : Option Json → Bool
  | some v => jsTruthy v
  | none => false

/-- The argument payload `json['action input'] || json.action_input || {}`. -/
def jsOr2 (a b : Option Json) : Json :=
  if truthyJ a then a.getD (Json.obj [])
  else if truthyJ b then b.getD (Json.obj [])
  else Json.obj []

/-- The replacement content written on successful normalization. -/
def iWillMsg : Str := "I".data ++ [apos] ++ "ll generate that message for you.".data

/-- The inline `function_call` normalization (`agent.ts` lines 49-71),
parametric in `JSON.parse` and `JSON.stringify` (`parse` returning `none`
models a `JSON.parse` throw) and in `Date.now()`.  A `null` payload throws
on the `.action` access inside the `try` and is caught, leaving the message
unchanged; any other non-object payload yields `undefined` fields without
throwing.  On success the message gets a single synthetic structured tool
call with id `call_<now>` and JSON-encoded arguments, and its content is
replaced. -/
def normalizeCore (parse : Str → Option Json) (strfy : Json → Str) (now : Nat)
    (msg : Msg) (inner : Str) : Msg :=
  match parse inner with
  | none => msg
  | some Json.null => msg
  | some j =>
    let actionV := jget j "action".data
    let nameV : Option Json :=
      match actionV with
      | some (Json.str s) =>
        if s = "generate_message".data then some (Json.str "generate_message".data) else actionV
      | _ => actionV
    { msg with
      tool_calls := some [⟨"call_".data ++ natRepr now, nameV,
        strfy (jsOr2 (jget j "action input".data) (jget j "action_input".data))⟩]
      content := some iWillMsg }

/-- The guarded rewrite around the extraction (`if` condition of line 49,
`match` of lines 53-67, the enclosing caught `try` of lines 51-70). -/
def normalizeFC (parse : Str → Option Json) (strfy : Json → Str) (now : Nat)
    (msg : Msg) : Msg :=
  if msg.tool_calls.isNone ∧ truthyS msg.content ∧
      containsSub (msg.content.getD []) "<function_call>".data then
    match fcExtract (msg.content.getD []) with
    | none => msg
    | some inner => normalizeCore parse strfy now msg inner
  else msg

/-- The assistant turn appended before tool execution (lines 76-80). -/
def assistantMsg (r : Msg) : Msg := ⟨"assistant".data, r.content, r.tool_calls, none⟩

/-- The tool turns appended per call (lines 83-96); the execution itself is
abstracted by `exec`, which produces the stringified
`ToolExecutionResult` — by `executeTool` it cannot throw. -/
def toolMsgs (exec : ToolCall → Str) (tcs : List ToolCall) : List Msg :=
  tcs.map (fun tc => ⟨"tool".data, some (exec tc), none, some tc.id⟩)

/-- The loop guard `response.tool_calls && response.tool_calls.length > 0`
(an absent field and an empty array both fail it). -/
def hasCalls (r : Msg) : Bool :=
  match r.tool_calls with
  | some (_ :: _) => true
  | _ => false

/-- The calls executed in one iteration. -/
def callsOf (r : Msg) : List ToolCall := r.tool_calls.getD []

/-- The tool loop of lines 74-100, observed up to `fuel` iterations:
`some (history, finalResponse)` when the guard fails within the bound,
`none` when the guard still holds after `fuel` iterations.  The provider is
an oracle over the accumulated history, as each re-query sends the full
updated history. -/
def agentLoop (oracle : List Msg → Msg) (exec : ToolCall → Str) :
    Nat → List Msg → Msg → Option (List Msg × Msg)
  | 0, ms, r => if hasCalls r then none else some (ms, r)
  | fuel + 1, ms, r =>
    if hasCalls r then
      let ms1 := ms ++ assistantMsg r :: toolMsgs exec (callsOf r)
      agentLoop oracle exec fuel ms1 (oracle ms1)
    else some (ms, r)

/-- The loop terminates from a state when some finite fuel suffices. -/
def loopTerminates (oracle : List Msg → Msg) (exec : ToolCall → Str)
    (ms : List Msg) (r : Msg) : Prop :=
  ∃ fuel, (agentLoop oracle exec fuel ms r).isSome

/-- The state after `n` unconditional loop iterations (the trace continues
past the exit point; only its prefix up to the first guard failure is
shared with the loop). -/
def loopTrace (oracle : List Msg → Msg) (exec : ToolCall → Str) :
    Nat → List Msg → Msg → List Msg × Msg
  | 0, ms, r => (ms, r)
  | n + 1, ms, r =>
    let ms1 := ms ++ assistantMsg r :: toolMsgs exec (callsOf r)
    loopTrace oracle exec n ms1 (oracle ms1)

/-! Section: Derived notions used by the statements below -/

/-- Source `prisma.lead.findUnique({ where: { id } })`. -/
def leadById (db : DB) (id : Nat) : Option Lead :=
  db.leads.find? (fun l => decide (l.id = id))

/-- The sum of the awarded points of a breakdown. -/
def bdSum : List BEntry → Rat
  | [] => 0
  | e :: t => qAdd e.score (bdSum t)

/-- The sum of the category ceilings of a breakdown. -/
def bdCeil : List BEntry → Nat
  | [] => 0
  | e :: t => e.maxScore + bdCeil t

/-- A range rule's bound contains an employee count: below the upper bound
when one exists, at or above the lower bound otherwise — the exact checks
of the selection loop. -/
def rangeContains (r : ERange) (emp : Nat) : Prop :=
  match r.max with
  | some m => emp < m
  | none => r.min ≤ emp

instance (r : ERange) (emp : Nat) : Decidable (rangeContains r emp) :=
  match hm : r.max with
  | some m => by unfold rangeContains; rw [hm]; exact inferInstance
  | none => by unfold rangeContains; rw [hm]; exact inferInstance

/-- A weight token for the category was matched in the text (by the
percentage pattern, or failing that the bare-point pattern). -/
def wMatched (text : Str) (cat : WCat) : Prop :=
  cat ∈ (weightTokens text).map Prod.fst

instance (text : Str) (cat : WCat) : Decidable (wMatched text cat) := by
  unfold wMatched
  exact inferInstance

/-- Modelled from the claim wording of C1: the persisted score should be
the breakdown's point sum, normalized to 100 whenever the breakdown's own
category ceilings do not already total 100. -/
def claimNormalized (sum : Rat) (ceilTotal : Nat) : Rat :=
  if ceilTotal = 100 then sum
  else (jsRound (qMul (qDiv sum ((ceilTotal : Nat) : Rat)) 100) : Rat)

/-- An empty database. -/
def dbEmpty : DB := ⟨[], [], 0⟩

/-- Parameters with every optional field absent. -/
def bareParams : ScoreParams :=
  ⟨"Acme".data, "Ada".data, "ada@acme.io".data, none, none, none, none, none, none, none⟩

/-- A lead with only a budget (150 000) among the optional attributes. -/
def budgetOnlyParams : ScoreParams :=
  { bareParams with budget := some 150000 }

/-- A lead with an industry and a qualifying budget but no employee count. -/
def c1Params : ScoreParams :=
  { bareParams with industry := some "SaaS".data, budget := some 200000 }

/-- A response sequence that opens with a single 429 and then succeeds. -/
def seq429 : Nat → ProviderResp :=
  fun i => if i = 0 then ProviderResp.err (some 429) else ProviderResp.ok "done".data

/-- An executor that always throws. -/
def throwingExec : ToolExec := fun _ db => (Except.error "boom".data, db)

/-- A registry holding the one embedded core tool. -/
def coreRegistry : Registry := [("score_lead".data, scoreLeadTool)]

/-- A provider that requests a tool call in every response. -/
def badCall : ToolCall := ⟨"call_1".data, some (Json.str "score_lead".data), "\x7b\x7d".data⟩

/-- The message such a provider keeps returning. -/
def badMsg : Msg := ⟨"assistant".data, some "working".data, some [badCall], none⟩

/-- The oracle that never stops requesting tools. -/
def badOracle : List Msg → Msg := fun _ => badMsg

/-- A trivial tool runner for the loop counterexample. -/
def nullExec : ToolCall → Str := fun _ => "\x7b\x7d".data

/-! Theorems

First the bridge lemmas from the kernel-reducible rational operations to
the standard ones, then the claim theorems. -/

theorem den_cast_nz (a : Rat) : ((a.den : Rat)) ≠ 0 := by
  exact_mod_cast a.den_nz

theorem qAdd_eq (a b : Rat) : qAdd a b = a + b := by
  conv_rhs => rw [← Rat.num_div_den a, ← Rat.num_div_den b]
  rw [div_add_div _ _ (den_cast_nz a) (den_cast_nz b), qAdd, Rat.mkRat_eq_div]
  push_cast
  ring_nf

theorem qMul_eq (a b : Rat) : qMul a b = a * b := by
  conv_rhs => rw [← Rat.num_div_den a, ← Rat.num_div_den b]
  rw [div_mul_div_comm, qMul, Rat.mkRat_eq_div]
  push_cast
  ring_nf

theorem mul_den_cancel (a : Rat) : a * (a.den : Rat) = (a.num : Rat) := by
  calc a * (a.den : Rat) = ((a.num : Rat) / (a.den : Rat)) * (a.den : Rat) := by
        rw [Rat.num_div_den a]
    _ = (a.num : Rat) := div_mul_cancel₀ _ (den_cast_nz a)

theorem divInt_num_den (a b : Rat) (hb : b.num ≠ 0) :
    Rat.divInt (a.num * b.den) (a.den * b.num) = a / b := by
  rw [Rat.divInt_eq_div]
  push_cast
  have h3 : ((b.num : Rat)) ≠ 0 := by exact_mod_cast hb
  have hd : (a.den : Rat) * (b.num : Rat) ≠ 0 := mul_ne_zero (den_cast_nz a) h3
  have hbne : b ≠ 0 := fun h => hb (by simp [h])
  rw [div_eq_div_iff hd hbne]
  linear_combination (a.num : Rat) * mul_den_cancel b - (b.num : Rat) * mul_den_cancel a

theorem qDiv_eq (a b : Rat) : qDiv a b = a / b := by
  rcases lt_trichotomy b.num 0 with h | h | h
  · rw [qDiv, if_pos h, Rat.mkRat_eq_divInt]
    have hc : ((a.den * (-b.num).toNat : Nat) : Int) = -((a.den : Int) * b.num) := by
      push_cast [Int.toNat_of_nonneg (by omega : (0:Int) ≤ -b.num)]
      ring
    rw [hc, Rat.divInt_neg, neg_neg]
    exact divInt_num_den a b (by omega)
  · have hb : b = 0 := by
      rw [← Rat.num_div_den b, h]
      simp
    subst hb
    rw [qDiv]
    simp [Rat.mkRat_eq_divInt]
  · rw [qDiv, if_neg (by omega), Rat.mkRat_eq_divInt]
    have hc : ((a.den * b.num.toNat : Nat) : Int) = (a.den : Int) * b.num := by
      push_cast [Int.toNat_of_nonneg (by omega : (0:Int) ≤ b.num)]
      ring
    rw [hc]
    exact divInt_num_den a b (by omega)

theorem qFloor_eq (q : Rat) : qFloor q = Int.floor q := by
  rw [Rat.floor_def, qFloor, Int.fdiv_eq_ediv _ (by exact_mod_cast Nat.zero_le q.den)]

theorem jsRound_eq (q : Rat) : jsRound q = Int.floor (q + 1/2) := by
  rw [jsRound, qFloor_eq, qAdd_eq]
  norm_num

/-! Section: C10 — unknown tool names -/

/-- C10: for every name with no registered executor, `executeTool` returns
`{success: false, error: "Tool '<name>' not found"}` with no data and the
database unchanged — no executor is invoked, so no state changes. -/
theorem C10_unknown_tool (reg : Registry) (name : Str) (p : ScoreParams) (db : DB)
    (h : regGet reg name = none) :
    executeTool reg name p db = (⟨false, none, some (notFoundMsg name)⟩, db) := by
  unfold executeTool
  rw [h]

theorem C10_unknown_tool_witness :
    executeTool coreRegistry "unknown_tool".data bareParams dbEmpty =
      (⟨false, none, some (notFoundMsg "unknown_tool".data)⟩, dbEmpty) :=
  C10_unknown_tool coreRegistry "unknown_tool".data bareParams dbEmpty rfl

/-! Section: C7 — `executeTool` never throws -/

/-- C7: with a registered executor, `executeTool` returns the executor's
result when it resolves; when the executor throws, the exception is caught
and converted into `{success: false, error: <message>}` with the database
as the executor left it — no failure propagates to the orchestrator. -/
theorem C7_never_throws (reg : Registry) (name : Str) (p : ScoreParams) (db : DB)
    (ex : ToolExec) (h : regGet reg name = some ex) :
    (∀ r db1, ex p db = (Except.ok r, db1) → executeTool reg name p db = (r, db1)) ∧
    (∀ e db1, ex p db = (Except.error e, db1) →
      executeTool reg name p db = (⟨false, none, some e⟩, db1)) := by
  constructor
  · intro r db1 hex
    simp only [executeTool, h, hex]
  · intro e db1 hex
    simp only [executeTool, h, hex]

theorem C7_never_throws_witness :
    executeTool [("t".data, throwingExec)] "t".data bareParams dbEmpty =
      (⟨false, none, some "boom".data⟩, dbEmpty) :=
  (C7_never_throws [("t".data, throwingExec)] "t".data bareParams dbEmpty
    throwingExec rfl).2 "boom".data dbEmpty rfl

/-! Section: C3 — provider retry policy -/

/-- C3 counterexample: the claim says every provider call retries a 429
after a backoff; `chatWithTools` propagates the 429 of its first and only
attempt immediately, with no backoff delay, on a response sequence the
claimed policy (shown alongside as `callGrok` behaviour) would turn into a
success after one 2-second delay. -/
theorem C3_counterexample :
    chatWithTools seq429 = ⟨[], 1, Except.error (some 429)⟩ ∧
    callGrok seq429 = ⟨[2000], 2, Except.ok "done".data⟩ :=
  ⟨rfl, rfl⟩

theorem callGrokFrom_step (oracle : Nat → ProviderResp) (i rem : Nat) (last : Option Nat) :
    callGrokFrom oracle i (rem + 1) last =
      (match oracle i with
      | ProviderResp.ok c => ⟨[], 1, Except.ok c⟩
      | ProviderResp.err s =>
        if s = some 429 then
          let rest := callGrokFrom oracle (i + 1) rem s
          ⟨2000 * (i + 1) :: rest.delays, rest.tries + 1, rest.result⟩
        else if is5xx s then
          let rest := callGrokFrom oracle (i + 1) rem s
          ⟨1000 * (i + 1) :: rest.delays, rest.tries + 1, rest.result⟩
        else ⟨[], 1, Except.error s⟩) := rfl

theorem callGrokFrom_ok (oracle : Nat → ProviderResp) (i rem : Nat) (last : Option Nat)
    (c : Str) (h : oracle i = ProviderResp.ok c) :
    callGrokFrom oracle i (rem + 1) last = ⟨[], 1, Except.ok c⟩ := by
  rw [callGrokFrom_step, h]

theorem callGrokFrom_err (oracle : Nat → ProviderResp) (i rem : Nat) (last : Option Nat)
    (s : Option Nat) (h : oracle i = ProviderResp.err s) :
    callGrokFrom oracle i (rem + 1) last =
      (if s = some 429 then
        ⟨2000 * (i + 1) :: (callGrokFrom oracle (i + 1) rem s).delays,
          (callGrokFrom oracle (i + 1) rem s).tries + 1,
          (callGrokFrom oracle (i + 1) rem s).result⟩
      else if is5xx s then
        ⟨1000 * (i + 1) :: (callGrokFrom oracle (i + 1) rem s).delays,
          (callGrokFrom oracle (i + 1) rem s).tries + 1,
          (callGrokFrom oracle (i + 1) rem s).result⟩
      else ⟨[], 1, Except.error s⟩) := by
  rw [callGrokFrom_step, h]

/-- C3 amended: calls made through `callGrok` are retried up to 3 attempts
with linear backoff — at the attempt indexed `i` (so attempt number `i + 1`)
a 429 waits `2000 * (i + 1)` ms and a 5xx waits `1000 * (i + 1)` ms before
the loop retries, while any other error propagates immediately with zero
backoffs — so [429, 429, 200] incurs exactly the delays [2000, 4000] and
then succeeds, [503, 503, 200] incurs exactly the delays [1000, 2000] and
then succeeds, [400] fails immediately, and no call ever takes more than 3
attempts; `chatWithTools`, however, performs exactly one attempt with no
backoff and propagates any error of that attempt. -/
theorem C3_amended :
    (∀ c : Str,
      callGrok (fun i => if i < 2 then ProviderResp.err (some 429) else ProviderResp.ok c) =
        ⟨[2000, 4000], 3, Except.ok c⟩) ∧
    (∀ c : Str,
      callGrok (fun i => if i < 2 then ProviderResp.err (some 503) else ProviderResp.ok c) =
        ⟨[1000, 2000], 3, Except.ok c⟩) ∧
    (∀ oracle i rem last s, oracle i = ProviderResp.err s → s = some 429 →
      callGrokFrom oracle i (rem + 1) last =
        ⟨2000 * (i + 1) :: (callGrokFrom oracle (i + 1) rem s).delays,
          (callGrokFrom oracle (i + 1) rem s).tries + 1,
          (callGrokFrom oracle (i + 1) rem s).result⟩) ∧
    (∀ oracle i rem last s, oracle i = ProviderResp.err s → s ≠ some 429 → is5xx s = true →
      callGrokFrom oracle i (rem + 1) last =
        ⟨1000 * (i + 1) :: (callGrokFrom oracle (i + 1) rem s).delays,
          (callGrokFrom oracle (i + 1) rem s).tries + 1,
          (callGrokFrom oracle (i + 1) rem s).result⟩) ∧
    (callGrok (fun _ => ProviderResp.err (some 400)) = ⟨[], 1, Except.error (some 400)⟩) ∧
    (∀ oracle s, oracle 0 = ProviderResp.err s → s ≠ some 429 → is5xx s = false →
      callGrok oracle = ⟨[], 1, Except.error s⟩) ∧
    (∀ oracle, (callGrok oracle).tries ≤ 3) ∧
    (∀ oracle, (chatWithTools oracle).delays = [] ∧ (chatWithTools oracle).tries = 1 ∧
      (chatWithTools oracle).result = (match oracle 0 with
        | ProviderResp.ok c => Except.ok c
        | ProviderResp.err s => Except.error s)) := by
  refine ⟨fun c => rfl, fun c => rfl, ?_, ?_, rfl, ?_, ?_, ?_⟩
  · intro oracle i rem last s h h429
    rw [callGrokFrom_err oracle i rem last s h, if_pos h429]
  · intro oracle i rem last s h h429 h5
    rw [callGrokFrom_err oracle i rem last s h, if_neg h429, if_pos h5]
  · intro oracle s h h429 h5
    have e1 : callGrok oracle = callGrokFrom oracle 0 (2 + 1) none := rfl
    rw [e1, callGrokFrom_err oracle 0 2 none s h]
    simp [h429, h5]
  · intro oracle
    have key : ∀ rem i last, (callGrokFrom oracle i rem last).tries ≤ rem := by
      intro rem
      induction rem with
      | zero => intro i last; simp [callGrokFrom]
      | succ n ih =>
        intro i last
        cases h : oracle i with
        | ok c =>
          rw [callGrokFrom_ok oracle i n last c h]
          change 1 ≤ n + 1
          omega
        | err s =>
          rw [callGrokFrom_err oracle i n last s h]
          split_ifs with h429 h5
          · have := ih (i + 1) s
            change (callGrokFrom oracle (i + 1) n s).tries + 1 ≤ n + 1
            omega
          · have := ih (i + 1) s
            change (callGrokFrom oracle (i + 1) n s).tries + 1 ≤ n + 1
            omega
          · change 1 ≤ n + 1
            omega
    exact key 3 0 none
  · intro oracle
    cases h : oracle 0 <;> simp [chatWithTools, h]

theorem C3_amended_witness :
    callGrok (fun i => if i < 2 then ProviderResp.err (some 429)
        else ProviderResp.ok "done".data) =
      ⟨[2000, 4000], 3, Except.ok "done".data⟩ ∧
    callGrok (fun i => if i < 2 then ProviderResp.err (some 503)
        else ProviderResp.ok "done".data) =
      ⟨[1000, 2000], 3, Except.ok "done".data⟩ ∧
    callGrokFrom (fun _ => ProviderResp.err (some 429)) 0 (2 + 1) none =
      ⟨2000 * (0 + 1) ::
          (callGrokFrom (fun _ => ProviderResp.err (some 429)) (0 + 1) 2 (some 429)).delays,
        (callGrokFrom (fun _ => ProviderResp.err (some 429)) (0 + 1) 2 (some 429)).tries + 1,
        (callGrokFrom (fun _ => ProviderResp.err (some 429)) (0 + 1) 2 (some 429)).result⟩ ∧
    callGrokFrom (fun _ => ProviderResp.err (some 503)) 0 (2 + 1) none =
      ⟨1000 * (0 + 1) ::
          (callGrokFrom (fun _ => ProviderResp.err (some 503)) (0 + 1) 2 (some 503)).delays,
        (callGrokFrom (fun _ => ProviderResp.err (some 503)) (0 + 1) 2 (some 503)).tries + 1,
        (callGrokFrom (fun _ => ProviderResp.err (some 503)) (0 + 1) 2 (some 503)).result⟩ ∧
    callGrok (fun _ => ProviderResp.err (some 404)) = ⟨[], 1, Except.error (some 404)⟩ :=
  ⟨C3_amended.1 "done".data,
    C3_amended.2.1 "done".data,
    C3_amended.2.2.1 (fun _ => ProviderResp.err (some 429)) 0 2 none (some 429) rfl rfl,
    C3_amended.2.2.2.1 (fun _ => ProviderResp.err (some 503)) 0 2 none (some 503) rfl
      (by decide) (by decide),
    C3_amended.2.2.2.2.2.1 (fun _ => ProviderResp.err (some 404)) (some 404) rfl
      (by decide) (by decide)⟩

/-! Section: C2 — totality and defaults of the criteria parser -/

/-- C2 counterexample: the claim says the three weights always sum to a
positive ceiling, but a text that explicitly assigns 0% to all three
categories parses to weights summing to zero. -/
theorem C2_counterexample :
    (parseCriteria "size: 0% industry: 0% intent: 0%".data).weights.size +
      (parseCriteria "size: 0% industry: 0% intent: 0%".data).weights.industry +
      (parseCriteria "size: 0% industry: 0% intent: 0%".data).weights.intent = 0 := by
  decide

theorem getW_applyWeights_not_mem (l : List (WCat × Nat)) (w : Weights) (c : WCat)
    (h : c ∉ l.map Prod.fst) : getW (applyWeights w l) c = getW w c := by
  induction l generalizing w with
  | nil => rfl
  | cons hd tl ih =>
    simp only [List.map_cons, List.mem_cons] at h
    push_neg at h
    have hstep : getW (setW w hd) c = getW w c := by
      obtain ⟨c1, v⟩ := hd
      have hne : c1 ≠ c := fun he => h.1 (by rw [he])
      cases c1 <;> cases c <;> simp_all [setW, getW]
    calc getW (applyWeights w (hd :: tl)) c
        = getW (applyWeights (setW w hd) tl) c := rfl
      _ = getW (setW w hd) c := ih (setW w hd) h.2
      _ = getW w c := hstep

/-- C2 amended: the parser is total by construction, and a weight whose
category matches no token in the text keeps its documented default (size
40, industry 30, intent 30); but the three weights need not sum to a
positive ceiling — whenever the sum is zero, the text explicitly matched
every category (to zero). -/
theorem C2_amended (text : Str) :
    (¬ wMatched text WCat.size → (parseCriteria text).weights.size = 40) ∧
    (¬ wMatched text WCat.industry → (parseCriteria text).weights.industry = 30) ∧
    (¬ wMatched text WCat.intent → (parseCriteria text).weights.intent = 30) ∧
    ((parseCriteria text).weights.size + (parseCriteria text).weights.industry +
        (parseCriteria text).weights.intent = 0 →
      wMatched text WCat.size ∧ wMatched text WCat.industry ∧ wMatched text WCat.intent) := by
  have h1 : ¬ wMatched text WCat.size → (parseCriteria text).weights.size = 40 :=
    fun h => getW_applyWeights_not_mem (weightTokens text) defaultWeights WCat.size h
  have h2 : ¬ wMatched text WCat.industry → (parseCriteria text).weights.industry = 30 :=
    fun h => getW_applyWeights_not_mem (weightTokens text) defaultWeights WCat.industry h
  have h3 : ¬ wMatched text WCat.intent → (parseCriteria text).weights.intent = 30 :=
    fun h => getW_applyWeights_not_mem (weightTokens text) defaultWeights WCat.intent h
  refine ⟨h1, h2, h3, fun h0 => ⟨?_, ?_, ?_⟩⟩
  · by_contra hc
    have := h1 hc
    omega
  · by_contra hc
    have := h2 hc
    omega
  · by_contra hc
    have := h3 hc
    omega

theorem C2_amended_witness :
    (parseCriteria "score the lead".data).weights.size = 40 ∧
    (parseCriteria "score the lead".data).weights.industry = 30 ∧
    (parseCriteria "score the lead".data).weights.intent = 30 :=
  ⟨(C2_amended "score the lead".data).1 (by decide),
    (C2_amended "score the lead".data).2.1 (by decide),
    (C2_amended "score the lead".data).2.2.1 (by decide)⟩

/-! Section: C4 — the tool-execution loop has no iteration cap -/

/-- C4 counterexample: against a provider that answers every re-query with
another tool-call request, the orchestrator loop never terminates — no
iteration cap produces a best-effort partial answer, contradicting the
claimed bound. -/
theorem C4_counterexample : ¬ loopTerminates badOracle nullExec [] badMsg := by
  have key : ∀ fuel ms, agentLoop badOracle nullExec fuel ms badMsg = none := by
    intro fuel
    induction fuel with
    | zero =>
      intro ms
      have hb : hasCalls badMsg = true := rfl
      simp [agentLoop, hb]
    | succ n ih =>
      intro ms
      have hb : hasCalls badMsg = true := rfl
      simp only [agentLoop, hb, if_true]
      exact ih _
  rintro ⟨fuel, hf⟩
  rw [key fuel []] at hf
  simp at hf

/-- C4 amended: the loop re-queries the provider exactly while responses
carry tool-call requests: it terminates if and only if, along its own
trace, some provider response carries no tool calls.  There is no
iteration cap — a provider that keeps requesting tools forever (the
counterexample) keeps the loop running forever. -/
theorem C4_amended (oracle : List Msg → Msg) (exec : ToolCall → Str)
    (ms : List Msg) (r : Msg) :
    loopTerminates oracle exec ms r ↔
      ∃ n, hasCalls (loopTrace oracle exec n ms r).2 = false := by
  have fwd : ∀ fuel ms r, (agentLoop oracle exec fuel ms r).isSome = true →
      ∃ n, hasCalls (loopTrace oracle exec n ms r).2 = false := by
    intro fuel
    induction fuel with
    | zero =>
      intro ms r hf
      cases hb : hasCalls r with
      | false => exact ⟨0, hb⟩
      | true => simp [agentLoop, hb] at hf
    | succ n ih =>
      intro ms r hf
      cases hb : hasCalls r with
      | false => exact ⟨0, hb⟩
      | true =>
        simp only [agentLoop, hb, if_true] at hf
        obtain ⟨k, hk⟩ :=
          ih (ms ++ assistantMsg r :: toolMsgs exec (callsOf r))
            (oracle (ms ++ assistantMsg r :: toolMsgs exec (callsOf r))) hf
        exact ⟨k + 1, hk⟩
  have bwd : ∀ n ms r, hasCalls (loopTrace oracle exec n ms r).2 = false →
      ∃ fuel, (agentLoop oracle exec fuel ms r).isSome = true := by
    intro n
    induction n with
    | zero =>
      intro ms r hn
      have hn1 : hasCalls r = false := hn
      exact ⟨0, by simp [agentLoop, hn1]⟩
    | succ k ih =>
      intro ms r hn
      cases hb : hasCalls r with
      | false => exact ⟨0, by simp [agentLoop, hb]⟩
      | true =>
        obtain ⟨fuel, hf⟩ :=
          ih (ms ++ assistantMsg r :: toolMsgs exec (callsOf r))
            (oracle (ms ++ assistantMsg r :: toolMsgs exec (callsOf r))) hn
        refine ⟨fuel + 1, ?_⟩
        simp only [agentLoop, hb, if_true]
        exact hf
  constructor
  · rintro ⟨fuel, hf⟩
    exact fwd fuel ms r hf
  · rintro ⟨n, hn⟩
    exact bwd n ms r hn

/-! Section: C8 — inline `function_call` normalization -/

/-- C8: when a response carries no structured tool calls but its content
contains an inline `<function_call>` pseudo-tag, the orchestrator parses
the tagged span and rewrites the message to carry one synthetic structured
tool call — id `call_<Date.now()>`, name copied from the payload's
`action` field, and JSON-encoded arguments from
`action input`/`action_input` — before continuing the loop; when the
extraction or the parse fails (no complete tag pair, unparseable JSON, or
a `null` payload whose property access throws) the message is left
unchanged, and a message without tool calls ends the loop at once with its
content as the final answer. -/
theorem C8_normalization (parse : Str → Option Json) (strfy : Json → Str) (now : Nat)
    (msg : Msg) (hnc : msg.tool_calls = none) (hct : truthyS msg.content = true)
    (hic : containsSub (msg.content.getD []) "<function_call>".data = true) :
    (∀ inner j, fcExtract (msg.content.getD []) = some inner → parse inner = some j →
      j ≠ Json.null →
      normalizeFC parse strfy now msg =
        { msg with
          tool_calls := some [⟨"call_".data ++ natRepr now,
            (match jget j "action".data with
             | some (Json.str s) =>
               if s = "generate_message".data then some (Json.str "generate_message".data)
               else jget j "action".data
             | _ => jget j "action".data),
            strfy (jsOr2 (jget j "action input".data) (jget j "action_input".data))⟩]
          content := some iWillMsg }) ∧
    (∀ inner, fcExtract (msg.content.getD []) = some inner → parse inner = none →
      normalizeFC parse strfy now msg = msg) ∧
    (∀ inner, fcExtract (msg.content.getD []) = some inner → parse inner = some Json.null →
      normalizeFC parse strfy now msg = msg) ∧
    (fcExtract (msg.content.getD []) = none → normalizeFC parse strfy now msg = msg) ∧
    (∀ oracle exec fuel ms (m2 : Msg), m2.tool_calls = none →
      agentLoop oracle exec fuel ms m2 = some (ms, m2)) := by
  have hcond : msg.tool_calls.isNone = true ∧ truthyS msg.content = true ∧
      containsSub (msg.content.getD []) "<function_call>".data = true :=
    ⟨by rw [hnc]; rfl, hct, hic⟩
  refine ⟨?_, ?_, ?_, ?_, ?_⟩
  · intro inner j hext hp hnull
    rw [normalizeFC, if_pos hcond, hext]
    show normalizeCore parse strfy now msg inner = _
    rw [normalizeCore, hp]
    cases j with
    | null => exact absurd rfl hnull
    | bool b => rfl
    | num q => rfl
    | str s => rfl
    | arr es => rfl
    | obj fs => rfl
  · intro inner hext hp
    rw [normalizeFC, if_pos hcond, hext]
    show normalizeCore parse strfy now msg inner = _
    rw [normalizeCore, hp]
  · intro inner hext hp
    rw [normalizeFC, if_pos hcond, hext]
    show normalizeCore parse strfy now msg inner = _
    rw [normalizeCore, hp]
  · intro hext
    rw [normalizeFC, if_pos hcond, hext]
  · intro oracle exec fuel ms m2 h2
    have hb : hasCalls m2 = false := by
      rw [hasCalls, h2]
    cases fuel with
    | zero => simp [agentLoop, hb]
    | succ n => simp [agentLoop, hb]

/-! Section: C5 — the final-score formula -/

theorem bdSum_eq_sum (l : List BEntry) : bdSum l = (l.map BEntry.score).sum := by
  induction l with
  | nil => rfl
  | cons e t ih => rw [bdSum, qAdd_eq, ih, List.map_cons, List.sum_cons]

theorem size_contrib_sum (c : Criteria) (p : ScoreParams) :
    (sizeContrib c p).1 = ((sizeContrib c p).2.map BEntry.score).sum := by
  rw [sizeContrib]
  split_ifs <;> simp

theorem industry_contrib_sum (c : Criteria) (p : ScoreParams) :
    (industryContrib c p).1 = ((industryContrib c p).2.map BEntry.score).sum := by
  rw [industryContrib]
  split_ifs <;> simp

theorem budget_contrib_sum (c : Criteria) (p : ScoreParams) :
    (budgetContrib c p).1 = ((budgetContrib c p).2.map BEntry.score).sum := by
  rw [budgetContrib]
  split_ifs <;> simp

theorem rawScore_eq_bdSum (c : Criteria) (p : ScoreParams) :
    rawScore c p = bdSum (fullBreakdown c p) := by
  rw [rawScore, bdSum_eq_sum, fullBreakdown]
  rw [List.map_append, List.map_append, List.sum_append, List.sum_append]
  rw [qAdd_eq, qAdd_eq, qAdd_eq, size_contrib_sum, industry_contrib_sum, budget_contrib_sum]
  ring

/-- C5 counterexample: with the default criteria (ceilings 40 + 30 + 30 =
100) and only a budget of 150 000 provided, the accumulated points are
22.5 but the persisted final score is `Math.round(22.5) = 23` — the claim
that the sum is taken unmodified when the ceilings total 100 fails. -/
theorem C5_counterexample :
    (computeScore (parseCriteria []) budgetOnlyParams).maxScore = 100 ∧
    (computeScore (parseCriteria []) budgetOnlyParams).score = mkRat 45 2 ∧
    bdSum (computeScore (parseCriteria []) budgetOnlyParams).breakdown = mkRat 45 2 ∧
    (computeScore (parseCriteria []) budgetOnlyParams).finalScore = 23 ∧
    ¬ (((computeScore (parseCriteria []) budgetOnlyParams).finalScore : Rat) =
        (computeScore (parseCriteria []) budgetOnlyParams).score) := by
  decide

/-- C5 amended: for every scoring run, the accumulated score equals the
sum of the breakdown's awarded points, the ceiling total is the sum of the
three criteria weights, and the final score is `Math.round` of that sum
when the ceilings total exactly 100, `Math.round(sum / ceilingTotal * 100)`
when the total is positive and not 100, and 0 when the total is 0 — i.e.
the claimed formula holds only up to the rounding the claim omits in the
first branch. -/
theorem C5_amended (c : Criteria) (p : ScoreParams) :
    (computeScore c p).score = bdSum (computeScore c p).breakdown ∧
    (computeScore c p).maxScore = c.weights.size + c.weights.industry + c.weights.intent ∧
    (computeScore c p).finalScore =
      (if (computeScore c p).maxScore = 100 then
        jsRound (bdSum (computeScore c p).breakdown)
      else if 0 < (computeScore c p).maxScore then
        jsRound (bdSum (computeScore c p).breakdown /
          ((computeScore c p).maxScore : Rat) * 100)
      else 0) := by
  refine ⟨rawScore_eq_bdSum c p, rfl, ?_⟩
  show finalScoreOf c p =
    (if maxWeight c = 100 then jsRound (bdSum (fullBreakdown c p))
     else if 0 < maxWeight c then
       jsRound (bdSum (fullBreakdown c p) / ((maxWeight c : Nat) : Rat) * 100)
     else 0)
  rw [finalScoreOf, ← rawScore_eq_bdSum c p, qMul_eq, qDiv_eq]

/-! Section: C9 and C1 — what `score_lead` persists -/

theorem upsert_activities (db : DB) (p : ScoreParams) :
    (upsertLead db p).2.activities = db.activities := by
  unfold upsertLead
  cases hfe : findByEmail db.leads p.email <;> rfl

theorem upsert_id_mem (db : DB) (p : ScoreParams) :
    ∃ l ∈ (upsertLead db p).2.leads, l.id = (upsertLead db p).1.id := by
  unfold upsertLead
  cases hfe : findByEmail db.leads p.email with
  | none => exact ⟨_, List.mem_append_right _ (List.mem_singleton_self _), rfl⟩
  | some old =>
    have hmem := List.mem_of_find?_eq_some hfe
    exact ⟨_, List.mem_map_of_mem _ hmem, by simp⟩

theorem findById_updateById (leads : List Lead) (i : Nat) (f : Lead → Lead)
    (hf : ∀ l, (f l).id = l.id)
    (h : ∃ l ∈ leads, l.id = i) :
    ∃ l0, l0 ∈ leads ∧ l0.id = i ∧
      (updateById leads i f).find? (fun l => decide (l.id = i)) = some (f l0) := by
  induction leads with
  | nil => simp at h
  | cons hd tl ih =>
    simp only [updateById, List.map_cons]
    by_cases hh : hd.id = i
    · refine ⟨hd, List.mem_cons_self hd tl, hh, ?_⟩
      rw [if_pos hh, List.find?_cons_of_pos]
      simp [hf hd, hh]
    · obtain ⟨l, hl, hid⟩ := h
      rcases List.mem_cons.mp hl with rfl | hm
      · exact absurd hid hh
      · obtain ⟨l0, h1, h2, h3⟩ := ih ⟨l, hm, hid⟩
        refine ⟨l0, List.mem_cons_of_mem _ h1, h2, ?_⟩
        rw [if_neg hh, List.find?_cons_of_neg]
        · exact h3
        · simp [hh]

/-- C9: every `score_lead` execution succeeds and persists, on the lead it
reports, both the final score and a stage derived from it — QUALIFIED at
80 and above, CONTACTED at 60 and above, NEW otherwise — so a scoring
operation silently moves the lead through the pipeline as well as updating
its score. -/
theorem C9_stage_persisted (p : ScoreParams) (db : DB) :
    (scoreLeadExec p db).1.success = true ∧
    (∀ d, (scoreLeadExec p db).1.data = some d →
      ∃ L, leadById (scoreLeadExec p db).2 d.leadId = some L ∧
        L.score = d.score ∧
        L.stage = (if 80 ≤ d.score then Stage.QUALIFIED
          else if 60 ≤ d.score then Stage.CONTACTED else Stage.NEW)) := by
  refine ⟨rfl, ?_⟩
  intro d hd
  have hinj : some (⟨(upsertLead db p).1.id, finalScoreOf (critOf p) p,
      fullBreakdown (critOf p) p, recommendationFor (finalScoreOf (critOf p) p)⟩ : ScoreData) =
      some d := hd
  have hdv := (Option.some.inj hinj).symm
  subst hdv
  obtain ⟨l0, hmem, hid, hfind⟩ := findById_updateById (upsertLead db p).2.leads
    (upsertLead db p).1.id
    (fun l => { l with
      score := finalScoreOf (critOf p) p
      stage := stageFor (finalScoreOf (critOf p) p) })
    (fun l => rfl) (upsert_id_mem db p)
  refine ⟨_, hfind, rfl, ?_⟩
  show stageFor (finalScoreOf (critOf p) p) = _
  rw [stageFor]
  split_ifs <;> rfl

theorem C9_stage_persisted_witness :
    ∃ L, leadById (scoreLeadExec bareParams dbEmpty).2 0 = some L ∧
      L.score = 0 ∧
      L.stage = (if (80 : Int) ≤ 0 then Stage.QUALIFIED
        else if (60 : Int) ≤ 0 then Stage.CONTACTED else Stage.NEW) :=
  (C9_stage_persisted bareParams dbEmpty).2 ⟨0, 0, [], recommendationFor 0⟩ rfl

theorem bdCeil_append (a b : List BEntry) : bdCeil (a ++ b) = bdCeil a + bdCeil b := by
  induction a with
  | nil => simp [bdCeil]
  | cons e t ih => rw [List.cons_append, bdCeil, bdCeil, ih]; omega

theorem size_contrib_ceil (c : Criteria) (p : ScoreParams) :
    bdCeil (sizeContrib c p).2 ≤ c.weights.size := by
  rw [sizeContrib]
  split_ifs <;> simp [bdCeil]

theorem industry_contrib_ceil (c : Criteria) (p : ScoreParams) :
    bdCeil (industryContrib c p).2 ≤ c.weights.industry := by
  rw [industryContrib]
  split_ifs <;> simp [bdCeil]

theorem budget_contrib_ceil (c : Criteria) (p : ScoreParams) :
    bdCeil (budgetContrib c p).2 ≤ c.weights.intent := by
  rw [budgetContrib]
  split_ifs <;> simp [bdCeil]

/-- C1 counterexample: scoring a lead with industry SaaS and budget
200 000 but no employee count (criteria text empty) persists breakdown
entries whose own ceilings total 60 with points summing to 60, yet the
persisted score is 60, not the 100 the claim's "normalized to the
breakdown's ceilings" reading demands — normalization divides by the
criteria weight total (100 here), not by the persisted breakdown's
ceilings. -/
theorem C1_counterexample :
    (leadById (scoreLeadExec c1Params dbEmpty).2 0).map Lead.score = some 60 ∧
    (scoreLeadExec c1Params dbEmpty).2.activities.map (fun a => bdSum a.breakdown) =
      [(60 : Rat)] ∧
    (scoreLeadExec c1Params dbEmpty).2.activities.map (fun a => bdCeil a.breakdown) = [60] ∧
    (scoreLeadExec c1Params dbEmpty).2.activities.map
      (fun a => claimNormalized (bdSum a.breakdown) (bdCeil a.breakdown)) = [(100 : Rat)] ∧
    ¬ ((60 : Rat) = (100 : Rat)) := by
  decide

/-- C1 amended: every completed `score_lead` operation persists one
`SCORE_UPDATED` activity carrying exactly the breakdown it reports, and
the persisted lead score equals `Math.round` of the sum of that
breakdown's awarded points, normalized by the criteria's three-weight
total (not by the breakdown's own ceilings, which never exceed that total
but are smaller whenever a category is absent): `round(sum)` when the
weight total is 100, `round(sum / total * 100)` when it is positive, and 0
when it is 0. -/
theorem C1_amended (p : ScoreParams) (db : DB) :
    ∀ d, (scoreLeadExec p db).1.data = some d →
      ∃ L, leadById (scoreLeadExec p db).2 d.leadId = some L ∧
        (scoreLeadExec p db).2.activities = db.activities ++ [scoreActivity p db] ∧
        (scoreActivity p db).breakdown = d.breakdown ∧
        L.score = (if maxWeight (critOf p) = 100 then jsRound (bdSum d.breakdown)
          else if 0 < maxWeight (critOf p) then
            jsRound (bdSum d.breakdown / ((maxWeight (critOf p) : Nat) : Rat) * 100)
          else 0) ∧
        bdCeil d.breakdown ≤ maxWeight (critOf p) := by
  intro d hd
  have hinj : some (⟨(upsertLead db p).1.id, finalScoreOf (critOf p) p,
      fullBreakdown (critOf p) p, recommendationFor (finalScoreOf (critOf p) p)⟩ : ScoreData) =
      some d := hd
  have hdv := (Option.some.inj hinj).symm
  subst hdv
  obtain ⟨l0, hmem, hid, hfind⟩ := findById_updateById (upsertLead db p).2.leads
    (upsertLead db p).1.id
    (fun l => { l with
      score := finalScoreOf (critOf p) p
      stage := stageFor (finalScoreOf (critOf p) p) })
    (fun l => rfl) (upsert_id_mem db p)
  refine ⟨_, hfind, ?_, rfl, ?_, ?_⟩
  · show (upsertLead db p).2.activities ++ [scoreActivity p db] = _
    rw [upsert_activities]
  · show finalScoreOf (critOf p) p =
      (if maxWeight (critOf p) = 100 then jsRound (bdSum (fullBreakdown (critOf p) p))
       else if 0 < maxWeight (critOf p) then
         jsRound (bdSum (fullBreakdown (critOf p) p) /
           ((maxWeight (critOf p) : Nat) : Rat) * 100)
       else 0)
    rw [finalScoreOf, ← rawScore_eq_bdSum (critOf p) p, qMul_eq, qDiv_eq]
  · show bdCeil (fullBreakdown (critOf p) p) ≤ maxWeight (critOf p)
    rw [fullBreakdown, bdCeil_append, bdCeil_append, maxWeight]
    have h1 := size_contrib_ceil (critOf p) p
    have h2 := industry_contrib_ceil (critOf p) p
    have h3 := budget_contrib_ceil (critOf p) p
    omega

theorem C1_amended_witness :
    ∃ L, leadById (scoreLeadExec bareParams dbEmpty).2 0 = some L ∧
      (scoreLeadExec bareParams dbEmpty).2.activities =
        dbEmpty.activities ++ [scoreActivity bareParams dbEmpty] ∧
      (scoreActivity bareParams dbEmpty).breakdown = ([] : List BEntry) ∧
      L.score = (if maxWeight (critOf bareParams) = 100 then jsRound (bdSum [])
        else if 0 < maxWeight (critOf bareParams) then
          jsRound (bdSum [] / ((maxWeight (critOf bareParams) : Nat) : Rat) * 100)
        else 0) ∧
      bdCeil ([] : List BEntry) ≤ maxWeight (critOf bareParams) :=
  C1_amended bareParams dbEmpty ⟨0, 0, [], recommendationFor 0⟩ rfl

/-! Section: C6 — employee-range selection -/

theorem insertRange_mem (r x : ERange) (l : List ERange) :
    x ∈ insertRange r l ↔ x = r ∨ x ∈ l := by
  induction l with
  | nil => simp [insertRange]
  | cons hd tl ih =>
    rw [insertRange]
    by_cases h : r.min ≤ hd.min
    · rw [if_pos h]
      simp only [List.mem_cons, ih]
      tauto
    · rw [if_neg h]
      simp only [List.mem_cons]

theorem sortRanges_mem (l : List ERange) (x : ERange) :
    x ∈ sortRangesDesc l ↔ x ∈ l := by
  have key : ∀ acc, x ∈ l.foldl (fun a r => insertRange r a) acc ↔ x ∈ acc ∨ x ∈ l := by
    induction l with
    | nil => intro acc; simp
    | cons hd tl ih =>
      intro acc
      rw [List.foldl_cons, ih (insertRange hd acc)]
      rw [insertRange_mem]
      simp only [List.mem_cons]
      tauto
  have h := key []
  rw [sortRangesDesc, h]
  simp

theorem insertRange_sorted (r : ERange) (l : List ERange)
    (h : List.Pairwise (fun a b => b.min ≤ a.min) l) :
    List.Pairwise (fun a b => b.min ≤ a.min) (insertRange r l) := by
  induction l with
  | nil => simp [insertRange]
  | cons hd tl ih =>
    rcases List.pairwise_cons.mp h with ⟨hhd, htl⟩
    rw [insertRange]
    by_cases hc : r.min ≤ hd.min
    · rw [if_pos hc]
      refine List.pairwise_cons.mpr ⟨?_, ih htl⟩
      intro y hy
      rcases (insertRange_mem r y tl).mp hy with rfl | hm
      · exact hc
      · exact hhd y hm
    · rw [if_neg hc]
      refine List.pairwise_cons.mpr ⟨?_, h⟩
      intro y hy
      rcases List.mem_cons.mp hy with rfl | hm
      · omega
      · have := hhd y hm
        omega

theorem sortRanges_sorted (l : List ERange) :
    List.Pairwise (fun a b => b.min ≤ a.min) (sortRangesDesc l) := by
  have key : ∀ acc, List.Pairwise (fun a b => b.min ≤ a.min) acc →
      List.Pairwise (fun a b => b.min ≤ a.min) (l.foldl (fun a r => insertRange r a) acc) := by
    induction l with
    | nil => intro acc hacc; simpa using hacc
    | cons hd tl ih =>
      intro acc hacc
      rw [List.foldl_cons]
      exact ih (insertRange hd acc) (insertRange_sorted hd acc hacc)
  exact key [] (by simp)

theorem selectRange_spec (emp : Nat) (l : List ERange)
    (hs : List.Pairwise (fun a b => b.min ≤ a.min) l)
    (hex : ∃ r ∈ l, rangeContains r emp) :
    ∃ r, selectRange emp l = some r ∧ rangeContains r emp ∧ r ∈ l ∧
      ∀ r2 ∈ l, rangeContains r2 emp → r2.min ≤ r.min := by
  induction l with
  | nil => simp at hex
  | cons hd tl ih =>
    rcases List.pairwise_cons.mp hs with ⟨hhd, htl⟩
    by_cases hc : rangeContains hd emp
    · refine ⟨hd, ?_, hc, List.mem_cons_self hd tl, ?_⟩
      · rw [selectRange]
        cases hmax : hd.max with
        | some m =>
          have hlt : emp < m := by
            unfold rangeContains at hc
            rw [hmax] at hc
            exact hc
          simp [hmax, hlt]
        | none =>
          have hle : hd.min ≤ emp := by
            unfold rangeContains at hc
            rw [hmax] at hc
            exact hc
          simp [hmax, hle]
      · intro r2 hr2 _
        rcases List.mem_cons.mp hr2 with rfl | hm
        · exact le_refl _
        · exact hhd r2 hm
    · have hsel : selectRange emp (hd :: tl) = selectRange emp tl := by
        rw [selectRange]
        cases hmax : hd.max with
        | some m =>
          have hnlt : ¬ emp < m := by
            intro hlt
            apply hc
            unfold rangeContains
            rw [hmax]
            exact hlt
          simp [hmax, hnlt]
        | none =>
          have hnle : ¬ hd.min ≤ emp := by
            intro hle
            apply hc
            unfold rangeContains
            rw [hmax]
            exact hle
          simp [hmax, hnle]
      have hex2 : ∃ r ∈ tl, rangeContains r emp := by
        rcases hex with ⟨r, hr, hcr⟩
        rcases List.mem_cons.mp hr with rfl | hm
        · exact absurd hcr hc
        · exact ⟨r, hm, hcr⟩
      obtain ⟨r, h1, h2, h3, h4⟩ := ih htl hex2
      refine ⟨r, by rw [hsel]; exact h1, h2, List.mem_cons_of_mem _ h3, ?_⟩
      intro r2 hr2 hc2
      rcases List.mem_cons.mp hr2 with rfl | hm
      · exact absurd hc2 hc
      · exact h4 r2 hm hc2

/-- C6 counterexample: the criteria text ">100 employees 0-0" extracts the
single range rule `{min: 100, points: 0}`; for 650 employees that rule's
bound contains the count and is the (only) highest-lower-bound match, yet
the engine awards 12 points — the zero-point selection falls through to
the proportional fallback instead of awarding the selected rule's points. -/
theorem C6_counterexample :
    (parseCriteria ">100 employees 0-0".data).employeeRanges = [⟨100, none, 0⟩] ∧
    rangeContains (⟨100, none, 0⟩ : ERange) 650 ∧
    (sizeScoreDetails (parseCriteria ">100 employees 0-0".data) 650).1 = 12 ∧
    ¬ ((12 : Rat) = (0 : Rat)) := by
  decide

/-- C6 amended: when explicit employee ranges exist and some range's bound
contains the lead's employee count, the engine selects a containing range
whose lower bound is maximal among the containing ranges, and awards its
point value whenever that value is nonzero (a zero-point selection falls
through to the proportional fallback); in particular, for an employee
count of 650 under ">500 employees = 40 points" the size category is
awarded exactly 40 points before normalization. -/
theorem C6_amended :
    (∀ (c : Criteria) (emp : Nat), c.employeeRanges ≠ [] →
      (∃ r ∈ c.employeeRanges, rangeContains r emp) →
      ∃ r, rangeContains r emp ∧ r ∈ c.employeeRanges ∧
        (∀ r2 ∈ c.employeeRanges, rangeContains r2 emp → r2.min ≤ r.min) ∧
        (r.points ≠ 0 → (sizeScoreDetails c emp).1 = r.points)) ∧
    (sizeScoreDetails (parseCriteria ">500 employees = 40 points".data) 650).1 = 40 := by
  constructor
  · intro c emp hne hex
    have hs := sortRanges_sorted c.employeeRanges
    have hex2 : ∃ r ∈ sortRangesDesc c.employeeRanges, rangeContains r emp := by
      rcases hex with ⟨r, hm, hcr⟩
      exact ⟨r, (sortRanges_mem _ _).mpr hm, hcr⟩
    obtain ⟨r, hsel, hcon, hmem, hmax⟩ := selectRange_spec emp _ hs hex2
    refine ⟨r, hcon, (sortRanges_mem _ _).mp hmem, ?_, ?_⟩
    · intro r2 hm2 hc2
      exact hmax r2 ((sortRanges_mem _ _).mpr hm2) hc2
    · intro hp
      rw [sizeScoreDetails, if_pos hne, hsel]
      show (sizeSelected r (sortRangesDesc c.employeeRanges) emp c.weights.size).1 = r.points
      rw [sizeSelected, if_pos hp]
  · decide

theorem C6_amended_witness :
    ∃ r, rangeContains r 650 ∧
      r ∈ (parseCriteria ">500 employees = 40 points".data).employeeRanges ∧
      (∀ r2 ∈ (parseCriteria ">500 employees = 40 points".data).employeeRanges,
        rangeContains r2 650 → r2.min ≤ r.min) ∧
      (r.points ≠ 0 →
        (sizeScoreDetails (parseCriteria ">500 employees = 40 points".data) 650).1 = r.points) :=
  C6_amended.1 (parseCriteria ">500 employees = 40 points".data) 650 (by decide)
    ⟨⟨500, none, 40⟩, by decide, by decide⟩

theorem C8_normalization_witness :
    normalizeFC
      (fun s => if s = "payload".data
        then some (Json.obj [("action".data, Json.str "gen".data)]) else none)
      (fun _ => "args".data) 7
      ⟨"assistant".data, some "<function_call>payload</function_call>".data, none, none⟩ =
      ⟨"assistant".data, some iWillMsg,
        some [⟨"call_7".data, some (Json.str "gen".data), "args".data⟩], none⟩ :=
  (C8_normalization
    (fun s => if s = "payload".data
      then some (Json.obj [("action".data, Json.str "gen".data)]) else none)
    (fun _ => "args".data) 7
    ⟨"assistant".data, some "<function_call>payload</function_call>".data, none, none⟩
    rfl rfl (by decide)).1 "payload".data
    (Json.obj [("action".data, Json.str "gen".data)]) (by decide) rfl
    (fun h => Json.noConfusion h)

end SDR
